import Mathlib

/-!
Verification development for the HarmoGraph pitch-analysis core.

The TypeScript sources are embedded shallowly:

* machine numbers (IEEE doubles) are modelled as exact rationals wherever the
  source only adds, multiplies, divides and compares, and as real numbers where
  the source applies transcendental functions (`Math.log`, `Math.log2`);
* `x | null` values become `Option`;
* in-place array mutation becomes explicit recursion that threads the already
  rewritten prefix, mirroring the read/write order of the original loops;
* the asynchronous neural-model boundary (`extractPitchByModel`) is an input:
  the pure analysis core receives the probability rows / pitch frames that the
  awaited call would produce.

Sections follow the source files: `ModelPitch` (src/lib/modelPitch.ts),
`Analyzer` (src/lib/analyzer.ts), `Notes` (the note-segmentation module).
-/

/-- JavaScript `Math.round`: round half away from zero is half *up* for the
values reached here; `Math.round(x) = ⌊x + 1/2⌋` for every finite double. -/
def jsRound (q : ℚ) : ℤ := ⌊q + 1 / 2⌋

namespace Analyzer

/-- `PitchFrame` from src/types.ts: `{timeSec, hz: number|null, clarity}`. -/
structure PitchFrame where
  timeSec : ℚ
  hz : Option ℚ
  clarity : ℚ
deriving DecidableEq

/-- `RhythmConfig` from src/types.ts: `{bpm, clickOffsetMs, subdivision}`. -/
structure RhythmConfig where
  bpm : ℚ
  clickOffsetMs : ℚ
  subdivision : ℚ

/-- Modelled from the spec: `median` is imported from `src/lib/utils.ts`, a file
absent from the provided sources.  §4.5 of the spec specifies aggregation by
median; we take the middle element (upper middle for even lengths) of the
ascending sort, the convention of the in-repo `medianFilter` helpers, and 0 on
the empty list (every statistic boundary coerces non-finite values to 0). -/
def median (l : List ℚ) : ℚ :=
  (l.mergeSort (fun a b => decide (a ≤ b))).getD (l.length / 2) 0

/-- Cell width in seconds: `(60 / bpm) / subdivision` after the `Math.max(1, ·)`
guards of `quantizePitchToRhythmGrid`. -/
def gridStep (rhythm : RhythmConfig) : ℚ :=
  60 / max 1 rhythm.bpm / max 1 rhythm.subdivision

/-- Start of grid cell `g`. -/
def cellStart (rhythm : RhythmConfig) (g : ℤ) : ℚ :=
  rhythm.clickOffsetMs / 1000 + (g : ℚ) * gridStep rhythm

/-- One output frame of the quantizer, built from the frames collected for the
cell starting at `s` (the `hzValues` / `clarityValues` aggregation of the
source loop body). -/
def mkCellOut (s step : ℚ) (inCell : List PitchFrame) : PitchFrame :=
  let hzValues := inCell.filterMap (·.hz)
  let clarityValues := inCell.map (·.clarity)
  { timeSec := s + step / 2
    hz := if hzValues.length > 0 then some (median hzValues) else none
    clarity :=
      if clarityValues.length > 0 then clarityValues.sum / clarityValues.length
      else 0 }

/-- The grid loop of `quantizePitchToRhythmGrid`.  The source keeps a persistent
`frameIndex` cursor; here the cursor is the suffix `rest`: the advancing
`while` is `dropWhile` and the collecting scan is `takeWhile`. -/
def quantCells (rhythm : RhythmConfig) : ℕ → ℤ → List PitchFrame → List PitchFrame
  | 0, _, _ => []
  | k + 1, g, rest =>
    let s := cellStart rhythm g
    let rest' := rest.dropWhile (fun f => decide (f.timeSec < s))
    let inCell := rest'.takeWhile (fun f => decide (f.timeSec < s + gridStep rhythm))
    mkCellOut s (gridStep rhythm) inCell :: quantCells rhythm k (g + 1) rest'

/-- src/lib/analyzer.ts `quantizePitchToRhythmGrid`. -/
def quantizePitchToRhythmGrid (frames : List PitchFrame) (rhythm : RhythmConfig) :
    List PitchFrame :=
  if frames = [] then []
  else
    let step := gridStep rhythm
    let offsetSec := rhythm.clickOffsetMs / 1000
    let endSec := ((frames.getLast?).map (·.timeSec)).getD 0
    let firstIndex : ℤ := ⌊(0 - offsetSec) / step⌋ - 1
    let lastIndex : ℤ := ⌈(endSec - offsetSec) / step⌉ + 1
    (quantCells rhythm (lastIndex - firstIndex + 1).toNat firstIndex frames).filter
      (fun f => decide (0 ≤ f.timeSec) && decide (f.timeSec ≤ endSec + step))

/-- Spec-side description of one grid cell (§4.5 of the spec, for comparison
with the source's cursor-based loop): the cell's pitch is the median Hz of the
voiced source frames whose timestamps fall inside the cell (null when none),
its clarity is the mean clarity of all source frames inside the cell (0 when
none), and its timestamp is the cell midpoint. -/
def specCell (frames : List PitchFrame) (rhythm : RhythmConfig) (g : ℤ) : PitchFrame :=
  let s := cellStart rhythm g
  let step := gridStep rhythm
  let inCell := frames.filter fun f => decide (s ≤ f.timeSec) && decide (f.timeSec < s + step)
  let voicedHz := inCell.filterMap (·.hz)
  { timeSec := s + step / 2
    hz := if voicedHz = [] then none else some (median voicedHz)
    clarity := if inCell = [] then 0 else (inCell.map (·.clarity)).sum / inCell.length }

/-- Frames are time-ordered (data-model invariant §3 of the spec). -/
def TimeSorted (l : List PitchFrame) : Prop :=
  l.Pairwise fun a b => a.timeSec ≤ b.timeSec

theorem gridStep_pos (rhythm : RhythmConfig) : 0 < gridStep rhythm := by
  have h1 : (0:ℚ) < max 1 rhythm.bpm := lt_of_lt_of_le one_pos (le_max_left _ _)
  have h2 : (0:ℚ) < max 1 rhythm.subdivision := lt_of_lt_of_le one_pos (le_max_left _ _)
  have : (0:ℚ) < 60 / max 1 rhythm.bpm := by positivity
  unfold gridStep
  positivity

theorem sorted_dropWhile_lt (s : ℚ) :
    ∀ l : List PitchFrame, TimeSorted l →
      l.dropWhile (fun f => decide (f.timeSec < s)) =
        l.filter (fun f => decide (s ≤ f.timeSec))
  | [], _ => rfl
  | a :: l, h => by
    rcases List.pairwise_cons.mp h with ⟨ha, hl⟩
    by_cases hc : a.timeSec < s
    · simpa [List.dropWhile, List.filter, hc, not_le.mpr hc] using
        sorted_dropWhile_lt s l hl
    · have hfix : l.filter (fun f => decide (s ≤ f.timeSec)) = l := by
        apply List.filter_eq_self.mpr
        intro b hb
        exact decide_eq_true (le_trans (not_lt.mp hc) (ha b hb))
      simp [List.dropWhile, List.filter, hc, not_lt.mp hc, hfix]

theorem sorted_takeWhile_lt (e : ℚ) :
    ∀ l : List PitchFrame, TimeSorted l →
      l.takeWhile (fun f => decide (f.timeSec < e)) =
        l.filter (fun f => decide (f.timeSec < e))
  | [], _ => rfl
  | a :: l, h => by
    rcases List.pairwise_cons.mp h with ⟨ha, hl⟩
    by_cases hc : a.timeSec < e
    · simpa [List.takeWhile, List.filter, hc] using sorted_takeWhile_lt e l hl
    · have hfix : l.filter (fun f => decide (f.timeSec < e)) = [] := by
        apply List.filter_eq_nil_iff.mpr
        intro b hb
        simpa using not_lt.mpr (le_trans (not_lt.mp hc) (ha b hb))
      simp [List.takeWhile, List.filter, hc, hfix]

theorem timeSorted_dropWhile {l : List PitchFrame} (p : PitchFrame → Bool)
    (h : TimeSorted l) : TimeSorted (l.dropWhile p) :=
  List.Pairwise.sublist (show List.Sublist (l.dropWhile p) l from List.dropWhile_sublist p) h

theorem cellStart_succ (rhythm : RhythmConfig) (g : ℤ) :
    cellStart rhythm (g + 1) = cellStart rhythm g + gridStep rhythm := by
  unfold cellStart
  push_cast
  ring

/-- The cursor-based grid loop computes, cell by cell, exactly the filter-based
aggregation: every produced cell collects the frames whose timestamps fall
inside that cell, provided the input is time-ordered. -/
theorem quantCells_eq_map (rhythm : RhythmConfig) :
    ∀ (k : ℕ) (g : ℤ) (pre rest : List PitchFrame),
      TimeSorted (pre ++ rest) →
      (∀ f ∈ pre, f.timeSec < cellStart rhythm g) →
      quantCells rhythm k g rest =
        (List.range k).map fun (j : ℕ) =>
          mkCellOut (cellStart rhythm (g + (j : ℤ))) (gridStep rhythm)
            ((pre ++ rest).filter fun f =>
              decide (cellStart rhythm (g + (j : ℤ)) ≤ f.timeSec) &&
              decide (f.timeSec < cellStart rhythm (g + (j : ℤ)) + gridStep rhythm))
  | 0, _, _, _, _, _ => rfl
  | k + 1, g, pre, rest, hsort, hpre => by
    have hsortRest : TimeSorted rest := (List.pairwise_append.mp hsort).2.1
    have hdrop := sorted_dropWhile_lt (cellStart rhythm g) rest hsortRest
    have hsortRest' : TimeSorted (rest.dropWhile fun f => decide (f.timeSec < cellStart rhythm g)) :=
      timeSorted_dropWhile _ hsortRest
    have htake := sorted_takeWhile_lt (cellStart rhythm g + gridStep rhythm) _ hsortRest'
    -- the collected frames of the head cell are the in-cell filter of the full list
    have hcell :
        (rest.dropWhile fun f => decide (f.timeSec < cellStart rhythm g)).takeWhile
            (fun f => decide (f.timeSec < cellStart rhythm g + gridStep rhythm)) =
          (pre ++ rest).filter fun f =>
            decide (cellStart rhythm g ≤ f.timeSec) &&
            decide (f.timeSec < cellStart rhythm g + gridStep rhythm) := by
      rw [htake, hdrop, List.filter_filter, List.filter_append]
      have hpreNil :
          (pre.filter fun f =>
            decide (cellStart rhythm g ≤ f.timeSec) &&
            decide (f.timeSec < cellStart rhythm g + gridStep rhythm)) = [] := by
        apply List.filter_eq_nil_iff.mpr
        intro f hf
        simp [not_le.mpr (hpre f hf)]
      rw [hpreNil, List.nil_append]
      congr 1
      funext f
      simp [Bool.and_comm]
    have hsplit :
        (pre ++ rest.takeWhile fun f => decide (f.timeSec < cellStart rhythm g)) ++
            (rest.dropWhile fun f => decide (f.timeSec < cellStart rhythm g)) =
          pre ++ rest := by
      rw [List.append_assoc, List.takeWhile_append_dropWhile]
    have hkey := quantCells_eq_map rhythm k (g + 1)
      (pre ++ rest.takeWhile fun f => decide (f.timeSec < cellStart rhythm g))
      (rest.dropWhile fun f => decide (f.timeSec < cellStart rhythm g))
      (by rw [hsplit]; exact hsort)
      (by
        intro f hf
        rcases List.mem_append.mp hf with hf | hf
        · exact lt_of_lt_of_le (hpre f hf)
            (by rw [cellStart_succ]; exact le_add_of_nonneg_right (gridStep_pos rhythm).le)
        · have := List.mem_takeWhile_imp hf
          simp only [decide_eq_true_eq] at this
          exact lt_of_lt_of_le this
            (by rw [cellStart_succ]; exact le_add_of_nonneg_right (gridStep_pos rhythm).le))
    rw [hsplit] at hkey
    have hstep :
        quantCells rhythm (k + 1) g rest =
          mkCellOut (cellStart rhythm g) (gridStep rhythm)
            ((rest.dropWhile fun f => decide (f.timeSec < cellStart rhythm g)).takeWhile
              (fun f => decide (f.timeSec < cellStart rhythm g + gridStep rhythm))) ::
          quantCells rhythm k (g + 1)
            (rest.dropWhile fun f => decide (f.timeSec < cellStart rhythm g)) := rfl
    rw [hstep, hcell, hkey, List.range_succ_eq_map, List.map_cons, List.map_map]
    congr 1
    · norm_num
    · apply List.map_congr_left
      intro j hj
      have heq : g + (Nat.succ j : ℤ) = g + 1 + (j : ℤ) := by push_cast; ring
      simp only [Function.comp]
      rw [heq]
  termination_by k => k

theorem specCell_eq_mkCellOut (frames : List PitchFrame) (rhythm : RhythmConfig) (g : ℤ) :
    specCell frames rhythm g =
      mkCellOut (cellStart rhythm g) (gridStep rhythm)
        (frames.filter fun f =>
          decide (cellStart rhythm g ≤ f.timeSec) &&
          decide (f.timeSec < cellStart rhythm g + gridStep rhythm)) := by
  unfold specCell mkCellOut
  simp only [PitchFrame.mk.injEq, List.length_map]
  refine ⟨trivial, ?_, ?_⟩
  · by_cases h :
      (frames.filter fun f =>
        decide (cellStart rhythm g ≤ f.timeSec) &&
        decide (f.timeSec < cellStart rhythm g + gridStep rhythm)).filterMap (·.hz) = []
    · simp [h]
    · simp [h, List.length_pos.mpr h]
  · by_cases h :
      (frames.filter fun f =>
        decide (cellStart rhythm g ≤ f.timeSec) &&
        decide (f.timeSec < cellStart rhythm g + gridStep rhythm)) = []
    · simp [h]
    · simp [h, List.length_pos.mpr h]

/-- C5: for every non-empty, time-ordered pitch-frame sequence and rhythm
configuration, each output cell of the grid quantizer has pitch equal to the
median Hz of the voiced source frames whose timestamps fall inside the cell
(null when none), clarity equal to the mean clarity of all source frames inside
the cell (0 when none), and timestamp equal to the cell midpoint (cell start
plus half the cell width): every output frame is `specCell` at some grid
index. -/
theorem mem_quantCells (rhythm : RhythmConfig) (k : ℕ) (g0 : ℤ)
    (frames : List PitchFrame) (hsorted : TimeSorted frames) :
    ∀ c ∈ quantCells rhythm k g0 frames, ∃ i : ℤ, c = specCell frames rhythm i := by
  intro c hc
  rw [quantCells_eq_map rhythm k g0 [] frames (by simpa using hsorted) (by simp)] at hc
  simp only [List.nil_append] at hc
  rcases List.mem_map.mp hc with ⟨j, _, rfl⟩
  exact ⟨g0 + (j : ℤ), (specCell_eq_mkCellOut frames rhythm _).symm⟩

theorem C5_grid_cell_spec (frames : List PitchFrame) (rhythm : RhythmConfig)
    (hne : frames ≠ []) (hsorted : TimeSorted frames) :
    ∀ g ∈ quantizePitchToRhythmGrid frames rhythm,
      ∃ i : ℤ, g = specCell frames rhythm i := by
  intro g hg
  simp only [quantizePitchToRhythmGrid, if_neg hne] at hg
  exact mem_quantCells rhythm _ _ frames hsorted g (List.mem_of_mem_filter hg)

def c5Frames : List PitchFrame := [⟨0, some 440, 1⟩]

def c5Rhythm : RhythmConfig := ⟨60, 0, 1⟩

theorem c5_eval :
    quantizePitchToRhythmGrid c5Frames c5Rhythm = [⟨1/2, some 440, 1⟩] := by
  have hstep : gridStep c5Rhythm = 1 := by
    have hmax1 : max (1:ℚ) 60 = 60 := max_eq_right (by norm_num)
    have hmax2 : max (1:ℚ) 1 = 1 := max_eq_right le_rfl
    show 60 / max 1 (60:ℚ) / max 1 (1:ℚ) = 1
    rw [hmax1, hmax2]
    norm_num
  have hoff : c5Rhythm.clickOffsetMs = 0 := rfl
  have hcs : ∀ g : ℤ, cellStart c5Rhythm g = (g : ℚ) := by
    intro g
    rw [cellStart, hstep, hoff]
    norm_num
  norm_num [quantizePitchToRhythmGrid, c5Frames, hstep, hoff, hcs, quantCells,
    mkCellOut, median, List.dropWhile, List.takeWhile, List.filter,
    List.filterMap_cons, List.mergeSort_singleton, List.getD]

/-- Default frame used by total indexing (`List.getD`); never produced by the
embedded code paths under scrutiny. -/
def dPF : PitchFrame := ⟨0, none, 0⟩

/-- Witness for C5 at a concrete input: a single voiced frame at `t = 0`,
60 BPM, one subdivision, no click offset.  The only surviving cell is cell 0,
timestamped at its midpoint `1/2`, with median pitch 440 and mean clarity 1. -/
theorem C5_grid_cell_spec_witness :
    (c5Frames ≠ [] ∧ TimeSorted c5Frames) ∧
      ∃ i : ℤ, (⟨1/2, some 440, 1⟩ : PitchFrame) = specCell c5Frames c5Rhythm i := by
  have hne : c5Frames ≠ [] := by simp [c5Frames]
  have hsorted : TimeSorted c5Frames := by simp [c5Frames, TimeSorted]
  refine ⟨⟨hne, hsorted⟩, ?_⟩
  exact C5_grid_cell_spec c5Frames c5Rhythm hne hsorted _ (by rw [c5_eval]; simp)

/-!
### Imputation layer (src/lib/analyzer.ts `fillShortNullGaps`,
`holdVoicingOnReferenceCells`)

`hzToMidi = 69 + 12·log2(hz/440)` and `midiToHz = 440·2^((midi−69)/12)` are
transcendental; they are abstracted as function parameters `hm` / `mh` — every
theorem below holds for arbitrary instantiations, in particular the real ones.
-/

/-- The interpolation loop filling one unvoiced run (`for k in 0..gap-1` in the
source): linear interpolation in semitone space between the flanking pitches,
clarity discounted to `min(prev, next) · 0.9`; timestamps kept. -/
def interpFill (hm mh : ℚ → ℚ) (ph nh pc nc : ℚ) (gap : ℕ) :
    ℕ → List PitchFrame → List PitchFrame
  | _, [] => []
  | k, f :: fs =>
    { timeSec := f.timeSec
      hz := some (mh (hm ph * (1 - ((k : ℚ) + 1) / ((gap : ℚ) + 1)) +
        hm nh * (((k : ℚ) + 1) / ((gap : ℚ) + 1))))
      clarity := min pc nc * (9 / 10) } :: interpFill hm mh ph nh pc nc gap (k + 1) fs

/-- One step of `fillShortNullGaps` over a maximal unvoiced run: the run is
filled only when it is short enough and both flanks are voiced within the
semitone bound, exactly the `continue` guards of the source. -/
def fillRun (hm mh : ℚ → ℚ) (maxGap : ℕ) (maxDiff : ℚ) (prev : Option PitchFrame)
    (next : Option PitchFrame) (run : List PitchFrame) : List PitchFrame :=
  if run.length > maxGap then run
  else
    match prev, next with
    | some p, some n =>
      match p.hz, n.hz with
      | some ph, some nh =>
        if |hm ph - hm nh| > maxDiff then run
        else interpFill hm mh ph nh p.clarity n.clarity run.length 0 run
      | _, _ => run
    | _, _ => run

/-- src/lib/analyzer.ts `fillShortNullGaps`, as a scan over maximal unvoiced
runs.  `prev` is the element preceding the current position (always an
unmodified voiced flank when a run is reached, matching the in-place loop). -/
def fillGapsGo (hm mh : ℚ → ℚ) (maxGap : ℕ) (maxDiff : ℚ) :
    Option PitchFrame → List PitchFrame → List PitchFrame
  | _, [] => []
  | prev, x :: rest =>
    if x.hz = none then
      let run := x :: rest.takeWhile (fun f => decide (f.hz = none))
      let rest' := rest.dropWhile (fun f => decide (f.hz = none))
      fillRun hm mh maxGap maxDiff prev rest'.head? run ++
        fillGapsGo hm mh maxGap maxDiff prev rest'
    else x :: fillGapsGo hm mh maxGap maxDiff (some x) rest
  termination_by _ l => l.length
  decreasing_by
  · simp only [List.length_cons]
    exact Nat.lt_succ_of_le (List.Sublist.length_le (List.dropWhile_sublist _))
  · simp

def fillShortNullGaps (hm mh : ℚ → ℚ) (frames : List PitchFrame)
    (maxGapCells : ℕ) (maxSemitoneDiff : ℚ) : List PitchFrame :=
  fillGapsGo hm mh maxGapCells maxSemitoneDiff none frames

/-- Loop body of `holdVoicingOnReferenceCells`: given the previous *output*
element (the source reads the possibly rewritten `out[i-1]`), the hold counter
and the co-indexed reference cell, produce the emitted frame and the next
`(hold, prev)` state. -/
def holdStep (maxHold hold : ℕ) (prev : Option PitchFrame) (ref : Option PitchFrame)
    (u : PitchFrame) : PitchFrame × ℕ × Option PitchFrame :=
  if u.hz ≠ none then (u, 0, some u)
  else
    match ref with
    | none => (u, 0, some u)
    | some r =>
      if r.hz = none then (u, 0, some u)
      else
        match prev with
        | some p =>
          match p.hz with
          | some ph =>
            if hold < maxHold then
              let u' : PitchFrame :=
                { timeSec := u.timeSec, hz := some ph,
                  clarity := max (15 / 100) (p.clarity * (8 / 10)) }
              (u', hold + 1, some u')
            else (u, 0, some u)
          | none => (u, 0, some u)
        | none => (u, 0, some u)

/-- src/lib/analyzer.ts `holdVoicingOnReferenceCells` as a fold of
`holdStep` over the user frames, consuming the reference frames in step. -/
def holdGo (maxHold : ℕ) :
    ℕ → Option PitchFrame → List PitchFrame → List PitchFrame → List PitchFrame
  | _, _, _, [] => []
  | hold, prev, refs, u :: us =>
    let s := holdStep maxHold hold prev refs.head? u
    s.1 :: holdGo maxHold s.2.1 s.2.2 refs.tail us

def holdVoicingOnReferenceCells (userFrames refFrames : List PitchFrame)
    (maxHoldCells : ℕ) : List PitchFrame :=
  holdGo maxHoldCells 0 none refFrames userFrames

theorem interpFill_length (hm mh : ℚ → ℚ) (ph nh pc nc : ℚ) (gap : ℕ) :
    ∀ (k : ℕ) (l : List PitchFrame),
      (interpFill hm mh ph nh pc nc gap k l).length = l.length
  | _, [] => rfl
  | k, _ :: fs => by
    simp [interpFill, interpFill_length hm mh ph nh pc nc gap (k + 1) fs]

theorem interpFill_timeSec (hm mh : ℚ → ℚ) (ph nh pc nc : ℚ) (gap : ℕ) :
    ∀ (k : ℕ) (l : List PitchFrame) (i : ℕ),
      ((interpFill hm mh ph nh pc nc gap k l).getD i dPF).timeSec =
        (l.getD i dPF).timeSec
  | _, [], i => rfl
  | k, f :: fs, 0 => rfl
  | k, f :: fs, i + 1 => by
    simpa [interpFill, List.getD_cons_succ] using
      interpFill_timeSec hm mh ph nh pc nc gap (k + 1) fs i

theorem fillRun_length (hm mh : ℚ → ℚ) (maxGap : ℕ) (maxDiff : ℚ)
    (prev next : Option PitchFrame) (run : List PitchFrame) :
    (fillRun hm mh maxGap maxDiff prev next run).length = run.length := by
  unfold fillRun
  repeat' split
  all_goals first
    | rfl
    | exact interpFill_length hm mh _ _ _ _ run.length 0 run

theorem fillRun_timeSec (hm mh : ℚ → ℚ) (maxGap : ℕ) (maxDiff : ℚ)
    (prev next : Option PitchFrame) (run : List PitchFrame) (i : ℕ) :
    ((fillRun hm mh maxGap maxDiff prev next run).getD i dPF).timeSec =
      (run.getD i dPF).timeSec := by
  unfold fillRun
  repeat' split
  all_goals first
    | rfl
    | exact interpFill_timeSec hm mh _ _ _ _ run.length 0 run i

theorem fillGapsGo_spec (hm mh : ℚ → ℚ) (maxGap : ℕ) (maxDiff : ℚ) :
    ∀ (l : List PitchFrame) (prev : Option PitchFrame),
      (fillGapsGo hm mh maxGap maxDiff prev l).length = l.length ∧
      ∀ i : ℕ,
        ((fillGapsGo hm mh maxGap maxDiff prev l).getD i dPF).timeSec =
          (l.getD i dPF).timeSec ∧
        ((fillGapsGo hm mh maxGap maxDiff prev l).getD i dPF = l.getD i dPF ∨
          (l.getD i dPF).hz = none)
  | [], prev => by simp [fillGapsGo, List.getD]
  | x :: rest, prev => by
    by_cases hx : x.hz = none
    · have hstep :
          fillGapsGo hm mh maxGap maxDiff prev (x :: rest) =
            fillRun hm mh maxGap maxDiff prev
              (rest.dropWhile (fun f => decide (f.hz = none))).head?
              (x :: rest.takeWhile (fun f => decide (f.hz = none))) ++
            fillGapsGo hm mh maxGap maxDiff prev
              (rest.dropWhile (fun f => decide (f.hz = none))) := by
        rw [fillGapsGo, if_pos hx]
      have hsplit :
          x :: rest =
            (x :: rest.takeWhile (fun f => decide (f.hz = none))) ++
              rest.dropWhile (fun f => decide (f.hz = none)) := by
        simp [List.takeWhile_append_dropWhile]
      have hrunNull :
          ∀ f ∈ x :: rest.takeWhile (fun f => decide (f.hz = none)), f.hz = none := by
        intro f hf
        rcases List.mem_cons.mp hf with rfl | hf
        · exact hx
        · simpa using List.mem_takeWhile_imp hf
      have ih := fillGapsGo_spec hm mh maxGap maxDiff
        (rest.dropWhile (fun f => decide (f.hz = none))) prev
      set run := x :: rest.takeWhile (fun f => decide (f.hz = none)) with hrun
      set rest' := rest.dropWhile (fun f => decide (f.hz = none)) with hrest'
      have hflen : (fillRun hm mh maxGap maxDiff prev rest'.head? run).length = run.length :=
        fillRun_length hm mh maxGap maxDiff prev rest'.head? run
      constructor
      · rw [hstep, List.length_append, hflen, ih.1]
        conv_rhs => rw [hsplit]
        rw [List.length_append]
      · intro i
        by_cases hi : i < run.length
        · have houtD :
              (fillGapsGo hm mh maxGap maxDiff prev (x :: rest)).getD i dPF =
                (fillRun hm mh maxGap maxDiff prev rest'.head? run).getD i dPF := by
            rw [hstep]
            exact List.getD_append _ _ _ _ (by rw [hflen]; exact hi)
          have hinD : (x :: rest).getD i dPF = run.getD i dPF := by
            conv_lhs => rw [hsplit]
            exact List.getD_append _ _ _ _ hi
          refine ⟨?_, Or.inr ?_⟩
          · rw [houtD, hinD]
            exact fillRun_timeSec hm mh maxGap maxDiff prev rest'.head? run i
          · rw [hinD, List.getD_eq_getElem run dPF hi]
            exact hrunNull _ (List.getElem_mem hi)
        · push_neg at hi
          have houtD :
              (fillGapsGo hm mh maxGap maxDiff prev (x :: rest)).getD i dPF =
                (fillGapsGo hm mh maxGap maxDiff prev rest').getD (i - run.length) dPF := by
            rw [hstep, List.getD_append_right _ _ _ _ (by rw [hflen]; exact hi), hflen]
          have hinD :
              (x :: rest).getD i dPF = rest'.getD (i - run.length) dPF := by
            conv_lhs => rw [hsplit]
            exact List.getD_append_right _ _ _ _ hi
          rw [houtD, hinD]
          exact (ih.2 (i - run.length))
    · have hstep :
          fillGapsGo hm mh maxGap maxDiff prev (x :: rest) =
            x :: fillGapsGo hm mh maxGap maxDiff (some x) rest := by
        rw [fillGapsGo, if_neg hx]
      have ih := fillGapsGo_spec hm mh maxGap maxDiff rest (some x)
      constructor
      · rw [hstep]
        simp [ih.1]
      · intro i
        match i with
        | 0 => simp [hstep]
        | i + 1 =>
          rw [hstep]
          simpa [List.getD_cons_succ] using ih.2 i
  termination_by l _ => l.length
  decreasing_by
  · simp only [List.length_cons]
    exact Nat.lt_succ_of_le (List.Sublist.length_le (List.dropWhile_sublist _))
  · simp

theorem holdStep_frame (maxHold hold : ℕ) (prev ref : Option PitchFrame)
    (u : PitchFrame) :
    (holdStep maxHold hold prev ref u).1.timeSec = u.timeSec ∧
      ((holdStep maxHold hold prev ref u).1 = u ∨ u.hz = none) := by
  unfold holdStep
  repeat' split
  all_goals simp_all

theorem holdGo_spec (maxHold : ℕ) :
    ∀ (us refs : List PitchFrame) (hold : ℕ) (prev : Option PitchFrame),
      (holdGo maxHold hold prev refs us).length = us.length ∧
      ∀ i : ℕ,
        ((holdGo maxHold hold prev refs us).getD i dPF).timeSec =
          (us.getD i dPF).timeSec ∧
        ((holdGo maxHold hold prev refs us).getD i dPF = us.getD i dPF ∨
          (us.getD i dPF).hz = none)
  | [], refs, hold, prev => by simp [holdGo, List.getD]
  | u :: us, refs, hold, prev => by
    have hstep := holdStep_frame maxHold hold prev refs.head? u
    have ih := holdGo_spec maxHold us refs.tail
      (holdStep maxHold hold prev refs.head? u).2.1
      (holdStep maxHold hold prev refs.head? u).2.2
    constructor
    · simp [holdGo, ih.1]
    · intro i
      match i with
      | 0 =>
        refine ⟨by simpa [holdGo] using hstep.1, ?_⟩
        rcases hstep.2 with heq | hnone
        · exact Or.inl (by simpa [holdGo] using heq)
        · exact Or.inr (by simpa using hnone)
      | i + 1 =>
        simpa [holdGo, List.getD_cons_succ] using ih.2 i

/-!
### Error segments (src/lib/analyzer.ts `buildErrorSegments`)
-/

/-- `ErrorFrame` from src/types.ts. -/
structure ErrorFrame where
  timeSec : ℚ
  cents : Option ℚ
deriving DecidableEq

/-- `ErrorSegment` from src/types.ts. -/
structure ErrorSegment where
  startSec : ℚ
  endSec : ℚ
  avgCents : ℚ
deriving DecidableEq

/-- The mutable `current` accumulator of the scan (`{start, end, values}`;
`end` is a keyword here, hence `stop`). -/
structure SegAcc where
  start : ℚ
  stop : ℚ
  values : List ℚ

/-- Closing an accumulated run: pushed only when it lasts at least
`minDurationSec`; its `avgCents` is the mean of the collected values. -/
def closeSeg (minDur : ℚ) (c : SegAcc) (segs : List ErrorSegment) : List ErrorSegment :=
  if minDur ≤ c.stop - c.start then
    segs ++ [⟨c.start, c.stop, c.values.sum / (c.values.length : ℚ)⟩]
  else segs

/-- Loop body of the `buildErrorSegments` scan: `exceeds` iff the frame has a
cents value of magnitude above tolerance; a run is extended / started on
exceeding frames and closed otherwise. -/
def segStep (tol minDur : ℚ) (f : ErrorFrame) (cur : Option SegAcc)
    (segs : List ErrorSegment) : Option SegAcc × List ErrorSegment :=
  match f.cents with
  | some v =>
    if tol < |v| then
      match cur with
      | none => (some ⟨f.timeSec, f.timeSec, [v]⟩, segs)
      | some c => (some ⟨c.start, f.timeSec, c.values ++ [v]⟩, segs)
    else
      match cur with
      | some c => (none, closeSeg minDur c segs)
      | none => (none, segs)
  | none =>
    match cur with
    | some c => (none, closeSeg minDur c segs)
    | none => (none, segs)

/-- The scan loop of `buildErrorSegments`, closing a trailing open run at the
end of the input. -/
def segScan (tol minDur : ℚ) :
    List ErrorFrame → Option SegAcc → List ErrorSegment → List ErrorSegment
  | [], cur, segs =>
    match cur with
    | some c => closeSeg minDur c segs
    | none => segs
  | f :: fs, cur, segs =>
    segScan tol minDur fs (segStep tol minDur f cur segs).1 (segStep tol minDur f cur segs).2

/-- src/lib/analyzer.ts `buildErrorSegments`: scan, then stable sort by
`|avgCents|` descending (JavaScript's stable `Array.prototype.sort` with
comparator `|b.avgCents| − |a.avgCents|`), then keep the top 3. -/
def buildErrorSegments (errors : List ErrorFrame) (tol : ℚ) (minDur : ℚ := 1/5) :
    List ErrorSegment :=
  ((segScan tol minDur errors none []).mergeSort
    (fun a b => decide (|b.avgCents| ≤ |a.avgCents|))).take 3

/-- A segment stemming from a contiguous run of error frames all exceeding the
tolerance: its endpoints are the run's first and last timestamps, its
`avgCents` the mean of the run's cents, and it lasts at least `minDur`. -/
def GoodSeg (errors : List ErrorFrame) (tol minDur : ℚ) (s : ErrorSegment) : Prop :=
  ∃ pre run post, errors = pre ++ run ++ post ∧ run ≠ [] ∧
    (∀ f ∈ run, ∃ v, f.cents = some v ∧ tol < |v|) ∧
    (∃ f₁ ∈ run.head?, s.startSec = f₁.timeSec) ∧
    (∃ f₂ ∈ run.getLast?, s.endSec = f₂.timeSec) ∧
    s.avgCents = (run.filterMap (·.cents)).sum / ((run.filterMap (·.cents)).length : ℚ) ∧
    minDur ≤ s.endSec - s.startSec

/-- The accumulator invariant: `c` describes a non-empty exceeding run such
that the input splits as `pre ++ run ++ fs` with `fs` still to be scanned. -/
def CurOK (errors fs : List ErrorFrame) (tol : ℚ) (c : SegAcc) : Prop :=
  ∃ pre run, errors = pre ++ run ++ fs ∧ run ≠ [] ∧
    (∀ f ∈ run, ∃ v, f.cents = some v ∧ tol < |v|) ∧
    (∃ f₁ ∈ run.head?, c.start = f₁.timeSec) ∧
    (∃ f₂ ∈ run.getLast?, c.stop = f₂.timeSec) ∧
    c.values = run.filterMap (·.cents)

theorem closeSeg_good {errors fs : List ErrorFrame} {tol minDur : ℚ} {c : SegAcc}
    {segs : List ErrorSegment} (hc : CurOK errors fs tol c)
    (hsegs : ∀ s ∈ segs, GoodSeg errors tol minDur s) :
    ∀ s ∈ closeSeg minDur c segs, GoodSeg errors tol minDur s := by
  intro s hs
  unfold closeSeg at hs
  split at hs
  case isTrue hdur =>
    rcases List.mem_append.mp hs with hs | hs
    · exact hsegs s hs
    · have hseq : s = ⟨c.start, c.stop, c.values.sum / (c.values.length : ℚ)⟩ := by
        simpa using hs
      rcases hc with ⟨pre, run, hsplit, hne, hex, h1, h2, hvals⟩
      refine ⟨pre, run, fs, hsplit, hne, hex, ?_, ?_, ?_, ?_⟩
      · simpa [hseq] using h1
      · simpa [hseq] using h2
      · simp [hseq, hvals]
      · simpa [hseq] using hdur
  case isFalse => exact hsegs s hs

theorem segStep_inv {errors done fs : List ErrorFrame} {f : ErrorFrame}
    {tol minDur : ℚ} {cur : Option SegAcc} {segs : List ErrorSegment}
    (hdone : errors = done ++ f :: fs)
    (hcur : ∀ c, cur = some c → CurOK errors (f :: fs) tol c)
    (hsegs : ∀ s ∈ segs, GoodSeg errors tol minDur s) :
    (∀ c, (segStep tol minDur f cur segs).1 = some c → CurOK errors fs tol c) ∧
      (∀ s ∈ (segStep tol minDur f cur segs).2, GoodSeg errors tol minDur s) := by
  have hsingle : errors = done ++ [f] ++ fs := by simp [hdone]
  unfold segStep
  rcases hfc : f.cents with _ | v
  · dsimp only
    rcases cur with _ | c
    · exact ⟨by simp, hsegs⟩
    · exact ⟨by simp, closeSeg_good (hcur c rfl) hsegs⟩
  · dsimp only
    by_cases hv : tol < |v|
    · rw [if_pos hv]
      rcases cur with _ | c
      · refine ⟨?_, hsegs⟩
        intro c hc
        rw [Option.some_inj] at hc
        subst hc
        refine ⟨done, [f], hsingle, by simp, ?_, by simp, by simp, by simp [hfc]⟩
        intro g hg
        rcases List.mem_singleton.mp hg with rfl
        exact ⟨v, hfc, hv⟩
      · refine ⟨?_, hsegs⟩
        intro c' hc'
        rw [Option.some_inj] at hc'
        subst hc'
        rcases hcur c rfl with ⟨pre, run, hsplit, hne, hex, h1, h2, hvals⟩
        refine ⟨pre, run ++ [f], by rw [hsplit]; simp, by simp, ?_, ?_, ?_, ?_⟩
        · intro g hg
          rcases List.mem_append.mp hg with hg | hg
          · exact hex g hg
          · rcases List.mem_singleton.mp hg with rfl
            exact ⟨v, hfc, hv⟩
        · rcases h1 with ⟨f₁, hf₁, hstart⟩
          refine ⟨f₁, ?_, hstart⟩
          rcases run with _ | ⟨a, t⟩
          · simp at hne
          · simpa using hf₁
        · exact ⟨f, by simp, rfl⟩
        · simp [hvals, hfc]
    · rw [if_neg hv]
      rcases cur with _ | c
      · exact ⟨by simp, hsegs⟩
      · exact ⟨by simp, closeSeg_good (hcur c rfl) hsegs⟩

theorem segScan_good (tol minDur : ℚ) :
    ∀ (fs : List ErrorFrame) (cur : Option SegAcc) (segs : List ErrorSegment)
      (errors done : List ErrorFrame),
      errors = done ++ fs →
      (∀ c, cur = some c → CurOK errors fs tol c) →
      (∀ s ∈ segs, GoodSeg errors tol minDur s) →
      ∀ s ∈ segScan tol minDur fs cur segs, GoodSeg errors tol minDur s
  | [], cur, segs, errors, done, _, hcur, hsegs => by
    intro s hs
    unfold segScan at hs
    rcases cur with _ | c
    · exact hsegs s hs
    · exact closeSeg_good (hcur c rfl) hsegs s hs
  | f :: fs, cur, segs, errors, done, hdone, hcur, hsegs => by
    intro s hs
    unfold segScan at hs
    have hinv := segStep_inv hdone hcur hsegs
    exact segScan_good tol minDur fs _ _ errors (done ++ [f]) (by simp [hdone])
      hinv.1 hinv.2 s hs

/-- C6: the top-error-segment extraction returns at most 3 segments; every
returned segment stems from a contiguous run of error frames with
`|cents| > toleranceCents`, lasts at least the minimum duration (both part of
`GoodSeg`), and the returned list is sorted by `|avgCents|` descending. -/
theorem C6_top_error_segments (errors : List ErrorFrame) (tol minDur : ℚ) :
    (buildErrorSegments errors tol minDur).length ≤ 3 ∧
    (∀ s ∈ buildErrorSegments errors tol minDur, GoodSeg errors tol minDur s) ∧
    (buildErrorSegments errors tol minDur).Pairwise
      (fun a b => |b.avgCents| ≤ |a.avgCents|) := by
  refine ⟨?_, ?_, ?_⟩
  · simp [buildErrorSegments]
  · intro s hs
    have hs1 := List.mem_of_mem_take hs
    have hs2 := List.mem_mergeSort.mp hs1
    exact segScan_good tol minDur errors none [] errors [] (by simp) (by simp)
      (by simp) s hs2
  · have hp := @List.sorted_mergeSort ErrorSegment
      (fun a b : ErrorSegment => decide (|b.avgCents| ≤ |a.avgCents|))
      (fun a b c hab hbc => by
        simp only [decide_eq_true_eq] at hab hbc ⊢
        exact le_trans hbc hab)
      (fun a b => by
        simp only [Bool.or_eq_true, decide_eq_true_eq]
        exact le_total _ _)
      (segScan tol minDur errors none [])
    have hp' := hp.imp (fun h => of_decide_eq_true h)
    exact List.Pairwise.sublist (List.take_sublist 3 _) hp'

def c6Errors : List ErrorFrame := [⟨0, some 100⟩, ⟨1/2, some 100⟩]

theorem c6_eval : buildErrorSegments c6Errors 25 (1/5) = [⟨0, 1/2, 100⟩] := by
  norm_num [buildErrorSegments, c6Errors, segScan, segStep, closeSeg,
    List.mergeSort_singleton]

/-- Witness for C6 at a concrete input: two frames 0.5 s apart, both 100 cents
off with a 25-cent tolerance, form one returned segment covering the whole run
with average 100 cents. -/
theorem C6_top_error_segments_witness :
    GoodSeg c6Errors 25 (1/5) ⟨0, 1/2, 100⟩ :=
  (C6_top_error_segments c6Errors 25 (1/5)).2.1 _ (by rw [c6_eval]; simp)

/-!
### Cross-signal aligner (src/lib/analyzer.ts `buildEnvelope`,
`estimateGlobalOffsetMs`)

`Math.sqrt` is transcendental; it is abstracted as a function parameter `sq`.
-/

/-- Sum of squares of one RMS window starting at sample `i` (the inner loop of
`buildEnvelope`; all reads are in bounds when `i + w ≤ mono.length`, the outer
loop's guard). -/
def windowPow (mono : List ℚ) (i w : ℕ) : ℚ :=
  ((List.range w).map fun j => mono.getD (i + j) 0 * mono.getD (i + j) 0).sum

/-- src/lib/analyzer.ts `buildEnvelope`: one RMS value per hop while
`i + windowSize ≤ mono.length`; with positive `hopSize` the loop runs for
`(len − windowSize) / hopSize + 1` iterations (none when the signal is shorter
than one window). -/
def buildEnvelope (sq : ℚ → ℚ) (mono : List ℚ) (windowSize hopSize : ℕ) : List ℚ :=
  let n := if windowSize ≤ mono.length then (mono.length - windowSize) / hopSize + 1 else 0
  (List.range n).map fun k => sq (windowPow mono (k * hopSize) windowSize / (windowSize : ℚ))

/-- The `(dot, refPow, userPow)` accumulation for one lag (inner loop of
`estimateGlobalOffsetMs`): out-of-range user indices are skipped. -/
def corrAt (refEnv userEnv : List ℚ) (lag : ℤ) : ℚ × ℚ × ℚ :=
  (List.range refEnv.length).foldl
    (fun acc (i : ℕ) =>
      if ((i : ℤ) + lag) < 0 ∨ (userEnv.length : ℤ) ≤ (i : ℤ) + lag then acc
      else
        (acc.1 + refEnv.getD i 0 * userEnv.getD ((i : ℤ) + lag).toNat 0,
         acc.2.1 + refEnv.getD i 0 * refEnv.getD i 0,
         acc.2.2 + userEnv.getD ((i : ℤ) + lag).toNat 0 * userEnv.getD ((i : ℤ) + lag).toNat 0))
    (0, 0, 0)

/-- The lags `-maxLag, …, maxLag` tried by the outer loop (empty when
`maxLag < 0`). -/
def lagList (maxLag : ℤ) : List ℤ :=
  (List.range (2 * maxLag + 1).toNat).map fun k => -maxLag + (k : ℤ)

/-- src/lib/analyzer.ts `estimateGlobalOffsetMs`.  The running best is
`(bestLag, bestScore)` with `none` standing for the initial
`NEGATIVE_INFINITY`; zero-power lags are skipped before any division. -/
def estimateGlobalOffsetMs (sq : ℚ → ℚ) (ref user : List ℚ) (sampleRate : ℚ) : ℚ :=
  let refEnv := buildEnvelope sq ref 1024 512
  let userEnv := buildEnvelope sq user 1024 512
  if refEnv.length = 0 ∨ userEnv.length = 0 then 0
  else
    let best := (lagList ⌊5 * sampleRate / 512⌋).foldl
      (fun (acc : ℤ × Option ℚ) lag =>
        let c := corrAt refEnv userEnv lag
        if c.2.1 = 0 ∨ c.2.2 = 0 then acc
        else
          let score := c.1 / sq (c.2.1 * c.2.2)
          match acc.2 with
          | none => (lag, some score)
          | some b => if b < score then (lag, some score) else acc)
      (0, none)
    (best.1 : ℚ) * 512 * 1000 / sampleRate

theorem foldl_skip {α β : Type} (f : β → α → β) :
    ∀ l : List α, (∀ a ∈ l, ∀ b, f b a = b) → ∀ b : β, l.foldl f b = b
  | [], _, b => rfl
  | a :: l, h, b => by
    rw [List.foldl_cons, h a (List.mem_cons_self a l) b]
    exact foldl_skip f l (fun a ha b => h a (List.mem_cons_of_mem _ ha) b) b

/-- C7: the cross-signal offset estimator returns 0 whenever either energy
envelope is empty; lags for which either windowed power is zero are skipped,
so if no lag produces a comparison with positive power on both sides the
returned offset is 0.  (Every value of the rational/real model is finite, so
the finiteness part of the claim is immediate here.) -/
theorem C7_offset_degenerate (sq : ℚ → ℚ) (ref user : List ℚ) (sampleRate : ℚ) :
    (buildEnvelope sq ref 1024 512 = [] ∨ buildEnvelope sq user 1024 512 = [] →
      estimateGlobalOffsetMs sq ref user sampleRate = 0) ∧
    ((∀ lag ∈ lagList ⌊5 * sampleRate / 512⌋,
        (corrAt (buildEnvelope sq ref 1024 512) (buildEnvelope sq user 1024 512) lag).2.1 = 0 ∨
        (corrAt (buildEnvelope sq ref 1024 512) (buildEnvelope sq user 1024 512) lag).2.2 = 0) →
      estimateGlobalOffsetMs sq ref user sampleRate = 0) := by
  constructor
  · intro h
    have hlen : (buildEnvelope sq ref 1024 512).length = 0 ∨
        (buildEnvelope sq user 1024 512).length = 0 := by
      rcases h with h | h <;> [left; right] <;> simp [h]
    unfold estimateGlobalOffsetMs
    rw [if_pos hlen]
  · intro h
    by_cases hlen : (buildEnvelope sq ref 1024 512).length = 0 ∨
        (buildEnvelope sq user 1024 512).length = 0
    · unfold estimateGlobalOffsetMs
      rw [if_pos hlen]
    · unfold estimateGlobalOffsetMs
      rw [if_neg hlen]
      have hfold := foldl_skip
        (fun (acc : ℤ × Option ℚ) lag =>
          let c := corrAt (buildEnvelope sq ref 1024 512) (buildEnvelope sq user 1024 512) lag
          if c.2.1 = 0 ∨ c.2.2 = 0 then acc
          else
            let score := c.1 / sq (c.2.1 * c.2.2)
            match acc.2 with
            | none => (lag, some score)
            | some b => if b < score then (lag, some score) else acc)
        (lagList ⌊5 * sampleRate / 512⌋)
        (by
          intro lag hlag b
          have := h lag hlag
          simp only [if_pos this])
        (0, none)
      simp only [hfold]
      norm_num

def c7Zeros : List ℚ := List.replicate 1024 0

theorem c7_env_zeros : buildEnvelope (fun _ => 0) c7Zeros 1024 512 = [0] := by
  have hlen : c7Zeros.length = 1024 := by rw [c7Zeros, List.length_replicate]
  have hr1 : List.range 1 = [0] := rfl
  unfold buildEnvelope
  simp only [hlen]
  norm_num [hr1]

/-- Witness for C7: both degenerate branches at concrete inputs — empty
signals (empty envelopes), and 1024-sample all-zero signals at 8 Hz sample
rate, where the single tried lag has zero power on both sides. -/
theorem C7_offset_degenerate_witness :
    estimateGlobalOffsetMs (fun _ => 0) [] [] 8 = 0 ∧
    estimateGlobalOffsetMs (fun _ => 0) c7Zeros c7Zeros 8 = 0 := by
  constructor
  · exact (C7_offset_degenerate (fun _ => 0) [] [] 8).1
      (Or.inl (by simp [buildEnvelope]))
  · refine (C7_offset_degenerate (fun _ => 0) c7Zeros c7Zeros 8).2 ?_
    intro lag hlag
    left
    rw [c7_env_zeros]
    have hr1 : List.range 1 = [0] := rfl
    simp [corrAt, hr1]

/-!
### Analysis entry point (src/lib/analyzer.ts `analyzePitch`)

The awaited neural-model results (`extractPitchByModel`) are inputs of the
pure core; `Math.log2` inside `centsError` and `hzToMidi` is the parameter
`log2q`, `Math.sqrt` the parameter `sq`.
-/

/-- `AnalysisConfig` from src/types.ts. -/
structure AnalysisConfig where
  toleranceCents : ℚ
  clarityThreshold : ℚ
  frameSize : ℕ
  hopSize : ℕ

/-- `AnalysisStats` from src/types.ts. -/
structure AnalysisStats where
  meanAbsCents : ℚ
  medianAbsCents : ℚ
  maxAbsCents : ℚ
  passRatio : ℚ
  undetectedRatio : ℚ

/-- `AnalysisResult` from src/types.ts: exactly the fields `analyzePitch`
returns — note there is no observed-only user sequence among them. -/
structure AnalysisResult where
  refPitch : List PitchFrame
  userPitch : List PitchFrame
  errorFrames : List ErrorFrame
  estimatedOffsetMs : ℚ
  stats : AnalysisStats
  topSegments : List ErrorSegment

/-- src/lib/analyzer.ts `centsError`: `1200 · log2(userHz / refHz)`. -/
def centsErrorQ (log2q : ℚ → ℚ) (userHz refHz : ℚ) : ℚ :=
  1200 * log2q (userHz / refHz)

/-- Every rational of the model is finite, so the `Number.isFinite` guard of
the source is the identity here. -/
def finiteOrZero (q : ℚ) : ℚ := q

/-- The `lo/hi` bisection loop of `findNearestPitch`. -/
def fnpLoop (frames : List PitchFrame) (target : ℚ) (lo hi : ℕ) : ℕ :=
  if h : lo < hi then
    let mid := (lo + hi) / 2
    if (frames.getD mid dPF).timeSec < target then fnpLoop frames target (mid + 1) hi
    else fnpLoop frames target lo mid
  else lo
  termination_by hi - lo
  decreasing_by
  · have hmid : lo ≤ (lo + hi) / 2 := Nat.le_div_iff_mul_le (by norm_num) |>.mpr (by omega)
    omega
  · have hmid : (lo + hi) / 2 < hi := Nat.div_lt_iff_lt_mul (by norm_num) |>.mpr (by omega)
    omega

/-- src/lib/analyzer.ts `findNearestPitch`. -/
def findNearestPitch (frames : List PitchFrame) (targetSec : ℚ) : Option PitchFrame :=
  if frames.length = 0 then none
  else
    let lo := fnpLoop frames targetSec 0 (frames.length - 1)
    let current := frames.getD lo dPF
    let prev := if 0 < lo then frames.getD (lo - 1) dPF else current
    some (if |prev.timeSec - targetSec| < |current.timeSec - targetSec| then prev else current)

/-- The pure core of src/lib/analyzer.ts `analyzePitch` (lines 260–332): the
two awaited `extractPitchByModel` results are the inputs `rawRefPitch` /
`rawUserPitch`, the two `mixToMono` results are `refMono` / `userMono`.  The
returned record carries exactly the source's result fields; both imputation
passes are applied to the user grid unconditionally — there is no flag and no
un-imputed output. -/
def analyzePitch (sq log2q hm mh : ℚ → ℚ) (refMono userMono : List ℚ)
    (sampleRate : ℚ) (rawRefPitch rawUserPitch : List PitchFrame)
    (config : AnalysisConfig) (manualOffsetMs : ℚ) (rhythm : RhythmConfig) :
    AnalysisResult :=
  let refVoiced := rawRefPitch.map fun f =>
    { f with hz := if config.clarityThreshold ≤ f.clarity then f.hz else none }
  let userVoiced := rawUserPitch.map fun f =>
    { f with hz := if config.clarityThreshold ≤ f.clarity then f.hz else none }
  let refPitch := quantizePitchToRhythmGrid refVoiced rhythm
  let userGrid := quantizePitchToRhythmGrid userVoiced rhythm
  let userPitch := holdVoicingOnReferenceCells
    (fillShortNullGaps hm mh userGrid 2 2) refPitch 1
  let estimatedOffsetMs := estimateGlobalOffsetMs sq refMono userMono sampleRate
  let totalOffsetSec := (estimatedOffsetMs + manualOffsetMs) / 1000
  let errorFrames : List ErrorFrame := refPitch.map fun refFrame =>
    match refFrame.hz with
    | none => ⟨refFrame.timeSec, none⟩
    | some refHz =>
      match findNearestPitch userPitch (refFrame.timeSec + totalOffsetSec) with
      | none => ⟨refFrame.timeSec, none⟩
      | some cand =>
        match cand.hz with
        | none => ⟨refFrame.timeSec, none⟩
        | some userHz => ⟨refFrame.timeSec, some (centsErrorQ log2q userHz refHz)⟩
  let validErrors := (errorFrames.filterMap (·.cents)).map abs
  let passCount := (validErrors.filter fun v => decide (v ≤ config.toleranceCents)).length
  let undetectedCount := (errorFrames.filter fun f => decide (f.cents = none)).length
  let meanAbsCents :=
    if validErrors.length = 0 then 0 else validErrors.sum / (validErrors.length : ℚ)
  let medianAbsCents := median validErrors
  -- `Math.max(...validErrors)` over non-negative magnitudes; seeded with 0
  let maxAbsCents := if validErrors.length = 0 then 0 else validErrors.foldl max 0
  let passRatio :=
    if validErrors.length = 0 then 0 else (passCount : ℚ) / (validErrors.length : ℚ)
  let undetectedRatio :=
    if errorFrames.length = 0 then 0 else (undetectedCount : ℚ) / (errorFrames.length : ℚ)
  { refPitch := refPitch
    userPitch := userPitch
    errorFrames := errorFrames
    estimatedOffsetMs := finiteOrZero estimatedOffsetMs
    stats :=
      { meanAbsCents := finiteOrZero meanAbsCents
        medianAbsCents := finiteOrZero medianAbsCents
        maxAbsCents := finiteOrZero maxAbsCents
        passRatio := finiteOrZero passRatio
        undetectedRatio := finiteOrZero undetectedRatio }
    topSegments := buildErrorSegments errorFrames config.toleranceCents }

def c1Raw : List PitchFrame := [⟨1/2, some 440, 1⟩, ⟨3/2, none, 1⟩, ⟨5/2, some 440, 1⟩]

def c1Cfg : AnalysisConfig := ⟨25, 1/5, 4096, 1024⟩

def c1Rhythm : RhythmConfig := ⟨60, 0, 1⟩

/-- The un-imputed ("observed-only") user grid for the C1 input. -/
def c1GridVal : List PitchFrame :=
  [⟨1/2, some 440, 1⟩, ⟨3/2, none, 1⟩, ⟨5/2, some 440, 1⟩, ⟨7/2, none, 0⟩]

theorem c1_voiced_eval :
    (c1Raw.map fun f =>
      { f with hz := if c1Cfg.clarityThreshold ≤ f.clarity then f.hz else none }) =
      c1Raw := by
  norm_num [c1Raw, c1Cfg]

theorem c1_grid_eval :
    quantizePitchToRhythmGrid c1Raw c1Rhythm = c1GridVal := by
  have hstep : gridStep c1Rhythm = 1 := by
    have hmax1 : max (1:ℚ) 60 = 60 := max_eq_right (by norm_num)
    have hmax2 : max (1:ℚ) 1 = 1 := max_eq_right le_rfl
    show 60 / max 1 (60:ℚ) / max 1 (1:ℚ) = 1
    rw [hmax1, hmax2]
    norm_num
  have hoff : c1Rhythm.clickOffsetMs = 0 := rfl
  have hcs : ∀ g : ℤ, cellStart c1Rhythm g = (g : ℚ) := by
    intro g
    rw [cellStart, hstep, hoff]
    norm_num
  have h52 : ⌈(5:ℚ)/2⌉ = (3:ℤ) := by
    rw [Int.ceil_eq_iff]
    constructor <;> norm_num
  norm_num [quantizePitchToRhythmGrid, c1Raw, c1GridVal, hstep, hoff, hcs, h52,
    quantCells, mkCellOut, median, List.dropWhile_cons, List.takeWhile_cons,
    List.filter, List.filterMap_cons, List.mergeSort_singleton, List.getD,
    reduceCtorEq]
  exact fun h => absurd h (by simp)

theorem c1_fill_hz1 (hm mh : ℚ → ℚ) :
    ((fillShortNullGaps hm mh c1GridVal 2 2).getD 1 dPF).hz ≠ none := by
  simp [fillShortNullGaps, fillGapsGo, fillRun, interpFill, c1GridVal,
    List.takeWhile_cons, List.dropWhile_cons, reduceCtorEq, List.getD_cons_succ,
    List.getD_cons_zero, sub_self, abs_zero]
  norm_num
  simp

/-- C1 (evidence): `analyzePitch` has no imputation flag and returns no
observed-only user sequence; on a concrete input whose user grid has a short
unvoiced gap between equal pitches, the returned `userPitch` differs from the
un-imputed grid sequence for every instantiation of the abstracted numeric
helpers — the imputation passes are applied unconditionally. -/
theorem C1_user_sequence_always_imputed (sq log2q hm mh : ℚ → ℚ) :
    (analyzePitch sq log2q hm mh [] [] 8 c1Raw c1Raw c1Cfg 0 c1Rhythm).userPitch ≠
      quantizePitchToRhythmGrid
        (c1Raw.map fun f =>
          { f with hz := if c1Cfg.clarityThreshold ≤ f.clarity then f.hz else none })
        c1Rhythm := by
  have hup :
      (analyzePitch sq log2q hm mh [] [] 8 c1Raw c1Raw c1Cfg 0 c1Rhythm).userPitch =
        holdVoicingOnReferenceCells (fillShortNullGaps hm mh c1GridVal 2 2) c1GridVal 1 := by
    show holdVoicingOnReferenceCells
        (fillShortNullGaps hm mh
          (quantizePitchToRhythmGrid
            (c1Raw.map fun f =>
              { f with hz := if c1Cfg.clarityThreshold ≤ f.clarity then f.hz else none })
            c1Rhythm) 2 2)
        (quantizePitchToRhythmGrid
          (c1Raw.map fun f =>
            { f with hz := if c1Cfg.clarityThreshold ≤ f.clarity then f.hz else none })
          c1Rhythm) 1 = _
    rw [c1_voiced_eval, c1_grid_eval]
  intro heq
  rw [hup, c1_voiced_eval, c1_grid_eval] at heq
  have hspec := (holdGo_spec 1 (fillShortNullGaps hm mh c1GridVal 2 2) c1GridVal 0 none).2 1
  rcases hspec.2 with hsame | hnone
  · have h1 : ((holdVoicingOnReferenceCells
        (fillShortNullGaps hm mh c1GridVal 2 2) c1GridVal 1).getD 1 dPF).hz ≠ none := by
      unfold holdVoicingOnReferenceCells
      rw [hsame]
      exact c1_fill_hz1 hm mh
    rw [heq] at h1
    exact h1 (by norm_num [c1GridVal, List.getD])
  · exact c1_fill_hz1 hm mh hnone

/-- C10: both imputation passes preserve the length and the per-index
timestamps of the user sequence and leave every already-voiced cell unchanged;
only unvoiced cells can be rewritten.  Stated for arbitrary semitone-conversion
functions `hm`/`mh` (the source's `hzToMidi`/`midiToHz`), gap/hold budgets and
tolerances. -/
theorem C10_imputation_frame_effect (hm mh : ℚ → ℚ) (maxGapCells : ℕ)
    (maxSemitoneDiff : ℚ) (frames refFrames : List PitchFrame) (maxHoldCells : ℕ)
    (i : ℕ) :
    (fillShortNullGaps hm mh frames maxGapCells maxSemitoneDiff).length = frames.length ∧
    (holdVoicingOnReferenceCells frames refFrames maxHoldCells).length = frames.length ∧
    ((fillShortNullGaps hm mh frames maxGapCells maxSemitoneDiff).getD i dPF).timeSec =
      (frames.getD i dPF).timeSec ∧
    ((holdVoicingOnReferenceCells frames refFrames maxHoldCells).getD i dPF).timeSec =
      (frames.getD i dPF).timeSec ∧
    ((fillShortNullGaps hm mh frames maxGapCells maxSemitoneDiff).getD i dPF =
        frames.getD i dPF ∨ (frames.getD i dPF).hz = none) ∧
    ((holdVoicingOnReferenceCells frames refFrames maxHoldCells).getD i dPF =
        frames.getD i dPF ∨ (frames.getD i dPF).hz = none) := by
  have hf := fillGapsGo_spec hm mh maxGapCells maxSemitoneDiff frames none
  have hh := holdGo_spec maxHoldCells frames refFrames 0 none
  exact ⟨hf.1, hh.1, (hf.2 i).1, (hh.2 i).1, (hf.2 i).2, (hh.2 i).2⟩

end Analyzer

namespace Cents

/-- src/lib/analyzer.ts line 20, with `Math.log2` given its real-number
semantics: `centsError(userHz, refHz) = 1200 · log2(userHz / refHz)`. -/
noncomputable def centsError (userHz refHz : ℝ) : ℝ :=
  1200 * Real.logb 2 (userHz / refHz)

/-- C9: the cents-error computation is anti-symmetric — for every reference
frequency `fRef > 0` and ratio `r > 0`, singing sharp by `r` scores the exact
negation of singing flat by `r`. -/
theorem C9_cents_antisymmetric (fRef r : ℝ) (hf : 0 < fRef) (hr : 0 < r) :
    centsError (fRef * r) fRef = -centsError (fRef / r) fRef := by
  unfold centsError
  have h1 : fRef * r / fRef = r := by field_simp
  have h2 : fRef / r / fRef = r⁻¹ := by
    field_simp
    ring
  rw [h1, h2]
  simp only [Real.logb, Real.log_inv]
  ring

/-- Witness for C9 at `fRef = 2`, `r = 3`. -/
theorem C9_cents_antisymmetric_witness :
    (0:ℝ) < 2 ∧ (0:ℝ) < 3 ∧
      centsError (2 * 3) 2 = -centsError (2 / 3) 2 :=
  ⟨by norm_num, by norm_num,
    C9_cents_antisymmetric 2 3 (by norm_num) (by norm_num)⟩

end Cents

namespace ModelPitch

/-!
### Viterbi decoder and path stabilizer (src/lib/modelPitch.ts)

Probabilities are real numbers (`Math.log` is `Real.log`); MIDI indices are
integers.  The dynamic-programming table entries are `Option ℝ` with `none`
standing for the initial `POSITIVE_INFINITY`, and the running best of the
final-frame scan is `Option ℝ` with `none` standing for
`NEGATIVE_INFINITY`-before-any-candidate.
-/

noncomputable section

/-- One entry of a candidate list or decoded path:
`{midi: number|null, prob}`. -/
structure PItem where
  midi : Option ℤ
  prob : ℝ

/-- Default item for total indexing; carries the silence marker. -/
def dMP : PItem := ⟨none, 0⟩

/-- src/lib/modelPitch.ts `buildCandidates` (MIDI_BASE = 21, TOP_K = 12):
rank by probability descending (stable, as JavaScript's sort), cap at 12,
drop entries with probability ≤ 0.004, and prepend the synthetic silence
candidate with probability `max(0.01, 0.4 − bestVoicedProbability)`. -/
def buildCandidates (rows : List (List ℝ)) : List (List PItem) :=
  rows.map fun row =>
    let ranked :=
      ((((row.enum.map fun x => (⟨some ((21 : ℤ) + (x.1 : ℤ)), x.2⟩ : PItem)).mergeSort
          fun a b => decide (b.prob ≤ a.prob)).take 12).filter
        fun c => decide ((0.004 : ℝ) < c.prob))
    let maxProb := ((ranked.head?).map (·.prob)).getD 0
    ⟨none, max 0.01 (0.4 - maxProb)⟩ :: ranked

/-- src/lib/modelPitch.ts `transitionCost` (JUMP_PENALTY = 0.28,
LARGE_JUMP_PENALTY = 1.4). -/
def transitionCost (fromMidi toMidi : Option ℤ) : ℝ :=
  match fromMidi, toMidi with
  | none, none => 0
  | none, some _ => 0.22
  | some _, none => 0.22
  | some a, some b =>
    if |b - a| ≤ 2 then (|b - a| : ℤ) * 0.03
    else if |b - a| ≤ 12 then (|b - a| : ℤ) * 0.28
    else 1.4 + (|b - a| : ℤ) * 0.11

/-- Emission cost (`viterbiTrack` inner loop): negative log probability with an
epsilon floor, a flat silence penalty and a weak-evidence penalty below the
0.06 clarity threshold. -/
def emitCost (c : PItem) : ℝ :=
  -Real.log (max 1e-6 c.prob) +
    (if c.midi = none then (0.15 : ℝ) else 0) +
    (if c.prob < 0.06 then (0.35 : ℝ) else 0)

/-- Strict order on scores where `none` is `+∞` (an infinite score never beats
anything, everything finite beats `+∞`). -/
def optLt : Option ℝ → Option ℝ → Prop
  | none, _ => False
  | some _, none => True
  | some s, some b => s < b

instance optLt.decidable (s b : Option ℝ) : Decidable (optLt s b) :=
  match s, b with
  | none, _ => isFalse (fun h => h)
  | some _, none => isTrue trivial
  | some x, some y => inferInstanceAs (Decidable (x < y))

/-- The inner `j` loop of the forward pass: best predecessor for one
candidate, starting from `(∞, −1)`. -/
def bestPrev (prevCands : List PItem) (prevDp : List (Option ℝ)) (cand : PItem)
    (emit : ℝ) : Option ℝ × ℤ :=
  ((prevDp.zip prevCands).enum).foldl
    (fun (acc : Option ℝ × ℤ) x =>
      let score : Option ℝ :=
        x.2.1.map fun dpj => dpj + transitionCost x.2.2.midi cand.midi + emit
      if optLt score acc.1 then (score, (x.1 : ℤ)) else acc)
    (none, -1)

/-- One frame of the forward pass: per-candidate best score and back pointer. -/
def forwardStep (prevCands : List PItem) (prevDp : List (Option ℝ))
    (cands : List PItem) : List (Option ℝ) × List ℤ :=
  let pairs := cands.map fun c => bestPrev prevCands prevDp c (emitCost c)
  (pairs.map (·.1), pairs.map (·.2))

/-- Forward pass over the remaining frames, threading the previous frame's
candidates and scores. -/
def forwardGo : List PItem → List (Option ℝ) → List (List PItem) →
    List (List (Option ℝ)) × List (List ℤ)
  | _, _, [] => ([], [])
  | prevCands, prevDp, c :: cs =>
    let step := forwardStep prevCands prevDp c
    let rest := forwardGo c step.1 cs
    (step.1 :: rest.1, step.2 :: rest.2)

/-- The full forward pass: frame 0 gets plain emission costs and back pointer
−1. -/
def forward : List (List PItem) → List (List (Option ℝ)) × List (List ℤ)
  | [] => ([], [])
  | c0 :: cs =>
    let dp0 := c0.map fun c => some (emitCost c)
    let back0 := c0.map fun _ => (-1 : ℤ)
    let rest := forwardGo c0 dp0 cs
    (dp0 :: rest.1, back0 :: rest.2)

/-- Final-frame argmin (`best`/`bestScore` scan): starts at index 0 with
`dp.at(-1)?.[0] ?? 0` and keeps the strictly smaller score, so ties favor the
lowest index. -/
def bestFinal (lastDp : List (Option ℝ)) : ℕ :=
  ((lastDp.enum.drop 1).foldl
    (fun (acc : ℕ × Option ℝ) x => if optLt x.2 acc.2 then (x.1, x.2) else acc)
    (0, lastDp.getD 0 (some 0))).1

/-- Backtracking in processed (reverse-time) order over the reversed candidate
and back-pointer tables; a negative back pointer is clamped to 0. -/
def backLoopRev : List (List PItem) → List (List ℤ) → ℕ → List PItem
  | [], _, _ => []
  | c :: cr, br, idx =>
    let nextIdxZ := (br.headD []).getD idx (-1)
    c.getD idx dMP ::
      backLoopRev cr br.tail (if nextIdxZ < 0 then 0 else nextIdxZ.toNat)

/-- JavaScript `Math.round` on the exact rational blend used by the anchor
updates. -/
def jsRoundQ (q : ℚ) : ℤ := ⌊q + 1 / 2⌋

/-- Loop body of pass 1 of `stabilizePath` (short-gap fill): a single silent
frame flanked by voiced pitches at most 2 semitones apart becomes their
rounded midpoint with the smaller flanking probability. -/
def gapStep (prev x y : PItem) : PItem :=
  if x.midi = none then
    match prev.midi, y.midi with
    | some p, some n =>
      if |p - n| ≤ 2 then
        (⟨some (jsRoundQ (((p + n : ℤ) : ℚ) / 2)), min prev.prob y.prob⟩ : PItem)
      else x
    | _, _ => x
  else x

/-- Pass 1 of `stabilizePath`, processing indices `1 … len−2`; `prev` is the
previous *output* element (the in-place loop reads the already rewritten
`out[i-1]` and the untouched `out[i+1]`). -/
def gapFillGo : PItem → List PItem → List PItem
  | _, [] => []
  | _, [x] => [x]
  | prev, x :: y :: tl => gapStep prev x y :: gapFillGo (gapStep prev x y) (y :: tl)

def gapFill : List PItem → List PItem
  | [] => []
  | a :: rest => a :: gapFillGo a rest

/-- The octave-shift search of pass 2: the shifted variant (−2 … +2 octaves)
strictly closest to the anchor. -/
def bestShift (m a : ℤ) : ℤ :=
  (([-2, -1, 0, 1, 2] : List ℤ).foldl
    (fun (acc : ℤ × ℤ) shift =>
      if |m + 12 * shift - a| < acc.2 then (m + 12 * shift, |m + 12 * shift - a|)
      else acc)
    (m, |m - a|)).1

/-- Pass 2 of `stabilizePath` (octave normalization around a decaying anchor):
accept the best shift when within 9 semitones of the anchor and blend the
anchor 80/20, otherwise demote the frame to silence and keep the anchor. -/
def octGo : Option ℤ → List PItem → List PItem
  | _, [] => []
  | anchor, cur :: rest =>
    match cur.midi with
    | none => cur :: octGo anchor rest
    | some m =>
      match anchor with
      | none => cur :: octGo (some m) rest
      | some a =>
        let best := bestShift m a
        if |best - a| ≤ 9 then
          (⟨some best, cur.prob⟩ : PItem) ::
            octGo (some (jsRoundQ ((4 * (a : ℚ) + (best : ℚ)) / 5))) rest
        else (⟨none, cur.prob⟩ : PItem) :: octGo (some a) rest

/-- src/lib/modelPitch.ts `stabilizePath`: gap fill, then octave
normalization. -/
def stabilizePath (path : List PItem) : List PItem := octGo none (gapFill path)

/-- src/lib/modelPitch.ts `viterbiTrack`: empty input short-circuits, else
forward pass, final argmin, backtrack (the source's cons-accumulating loop is
the reverse of `backLoopRev`), then stabilization. -/
def viterbiTrack (rows : List (List ℝ)) : List PItem :=
  match rows with
  | [] => []
  | r :: rs =>
    let cands := buildCandidates (r :: rs)
    let fb := forward cands
    stabilizePath ((backLoopRev cands.reverse fb.2.reverse
      (bestFinal ((fb.1.getLast?).getD []))).reverse)

/-- Candidate set of frame `j`. -/
def candsAt (rows : List (List ℝ)) (j : ℕ) : List PItem :=
  (buildCandidates rows).getD j []

end

theorem buildCandidates_length (rows : List (List ℝ)) :
    (buildCandidates rows).length = rows.length := by
  simp [buildCandidates]

theorem backLoopRev_length :
    ∀ (cr : List (List PItem)) (br : List (List ℤ)) (idx : ℕ),
      (backLoopRev cr br idx).length = cr.length
  | [], _, _ => rfl
  | c :: cr, br, idx => by
    simp [backLoopRev, backLoopRev_length cr]

theorem backLoopRev_mem :
    ∀ (cr : List (List PItem)) (br : List (List ℤ)) (idx i : ℕ),
      (backLoopRev cr br idx).getD i dMP ∈ cr.getD i [] ∨
        (backLoopRev cr br idx).getD i dMP = dMP
  | [], _, _, _ => by simp [backLoopRev, List.getD]
  | c :: cr, br, idx, 0 => by
    rw [backLoopRev]
    by_cases h : idx < c.length
    · left
      simp only [List.getD_cons_zero]
      rw [List.getD_eq_getElem c dMP h]
      exact List.getElem_mem h
    · right
      simp only [List.getD_cons_zero]
      exact List.getD_eq_default c dMP (le_of_not_lt h)
  | c :: cr, br, idx, i + 1 => by
    rw [backLoopRev]
    simpa only [List.getD_cons_succ] using backLoopRev_mem cr br.tail _ i

theorem gapFillGo_length : ∀ (rest : List PItem) (prev : PItem),
    (gapFillGo prev rest).length = rest.length
  | [], _ => rfl
  | [_], _ => rfl
  | x :: y :: tl, prev => by
    rw [gapFillGo]
    simp only [List.length_cons]
    rw [gapFillGo_length (y :: tl)]
    simp

theorem gapFill_length (l : List PItem) : (gapFill l).length = l.length := by
  cases l with
  | nil => rfl
  | cons a rest => simp [gapFill, gapFillGo_length]

theorem octGo_length : ∀ (anchor : Option ℤ) (l : List PItem),
    (octGo anchor l).length = l.length
  | _, [] => rfl
  | anchor, cur :: rest => by
    rw [octGo]
    rcases cur.midi with _ | m
    · simp [octGo_length _ rest]
    · rcases anchor with _ | a
      · simp [octGo_length _ rest]
      · by_cases h : |bestShift m a - a| ≤ 9
        · simp [h, octGo_length _ rest]
        · simp [h, octGo_length _ rest]

theorem stabilizePath_length (path : List PItem) :
    (stabilizePath path).length = path.length := by
  rw [stabilizePath, octGo_length, gapFill_length]

theorem viterbiTrack_length (rows : List (List ℝ)) :
    (viterbiTrack rows).length = rows.length := by
  match rows with
  | [] => rfl
  | r :: rs =>
    rw [viterbiTrack]
    rw [stabilizePath_length, List.length_reverse, backLoopRev_length,
      List.length_reverse, buildCandidates_length]

/-- The backtracked path (reverse of `backLoopRev` over the reversed tables)
picks, at every frame, an element of that frame's candidate list — or the
default when an index is out of range, which is marked as silence. -/
theorem path_mem (cands : List (List PItem)) (br : List (List ℤ)) (best : ℕ)
    (i : ℕ) :
    (backLoopRev cands.reverse br best).reverse.getD i dMP ∈ cands.getD i [] ∨
      (backLoopRev cands.reverse br best).reverse.getD i dMP = dMP := by
  set rev := backLoopRev cands.reverse br best with hrev
  have hlenRev : rev.length = cands.length := by
    rw [hrev, backLoopRev_length, List.length_reverse]
  by_cases hi : i < rev.reverse.length
  · have hi' : i < rev.length := by simpa using hi
    have hicands : i < cands.length := by rw [← hlenRev]; exact hi'
    have h1 : rev.reverse.getD i dMP = rev.getD (rev.length - 1 - i) dMP := by
      rw [List.getD_eq_getElem _ _ hi, List.getD_eq_getElem _ _ (by omega)]
      rw [List.getElem_reverse]
    have h2 : cands.reverse.getD (rev.length - 1 - i) [] = cands.getD i [] := by
      have hb : rev.length - 1 - i < cands.reverse.length := by
        simp only [List.length_reverse]
        omega
      rw [List.getD_eq_getElem _ _ hb, List.getD_eq_getElem _ _ hicands]
      rw [List.getElem_reverse]
      congr 1
      simp only [List.length_reverse] at hb ⊢
      omega
    rw [h1, ← h2]
    exact backLoopRev_mem cands.reverse br best (rev.length - 1 - i)
  · right
    exact List.getD_eq_default _ _ (le_of_not_lt hi)

theorem gapStep_spec (prev x y : PItem) :
    gapStep prev x y = x ∨
      (x.midi = none ∧ ∃ p n, prev.midi = some p ∧ y.midi = some n ∧ |p - n| ≤ 2 ∧
        gapStep prev x y =
          ⟨some (jsRoundQ (((p + n : ℤ) : ℚ) / 2)), min prev.prob y.prob⟩) := by
  unfold gapStep
  by_cases hx : x.midi = none
  · rw [if_pos hx]
    rcases hp : prev.midi with _ | p
    · left; rfl
    · rcases hn : y.midi with _ | n
      · left; rfl
      · dsimp only
        by_cases hd : |p - n| ≤ 2
        · right
          exact ⟨hx, p, n, rfl, rfl, hd, by rw [if_pos hd]⟩
        · left
          rw [if_neg hd]
  · rw [if_neg hx]
    exact Or.inl rfl

theorem gapStep_of_ynull (prev x y : PItem) (hy : y.midi = none) :
    gapStep prev x y = x := by
  unfold gapStep
  by_cases hx : x.midi = none
  · rw [if_pos hx]
    rcases hp : prev.midi with _ | p
    · rfl
    · rw [hy]
  · rw [if_neg hx]

/-- Full characterization of the gap-fill pass relative to its input: every
output entry either equals the input entry, or the input entry was silent, has
a successor, its virtual left neighbor (`prev` at index 0, the input's `i−1`
entry otherwise — always the *unmodified* input value, since a fill at `i−1`
would have required the entry at `i` to be voiced) and its right neighbor are
voiced within 2 semitones, and the output is the rounded midpoint carrying the
minimum flanking probability. -/
theorem gapFillGo_spec :
    ∀ (rest : List PItem) (prev : PItem) (i : ℕ),
      (gapFillGo prev rest).getD i dMP = rest.getD i dMP ∨
        ((rest.getD i dMP).midi = none ∧ i + 1 < rest.length ∧
          ∃ p n, (if i = 0 then prev else rest.getD (i - 1) dMP).midi = some p ∧
            (rest.getD (i + 1) dMP).midi = some n ∧ |p - n| ≤ 2 ∧
            (gapFillGo prev rest).getD i dMP =
              ⟨some (jsRoundQ (((p + n : ℤ) : ℚ) / 2)),
               min (if i = 0 then prev else rest.getD (i - 1) dMP).prob
                 (rest.getD (i + 1) dMP).prob⟩)
  | [], _, _ => by left; rfl
  | [x], _, i => by left; rfl
  | x :: y :: tl, prev, 0 => by
    rw [gapFillGo]
    rcases gapStep_spec prev x y with heq | ⟨hx, p, n, hp, hn, hd, heq⟩
    · left
      simp [heq]
    · right
      refine ⟨by simpa using hx, by simp, p, n, by simpa using hp, by simpa using hn,
        hd, by simpa using heq⟩
  | x :: y :: tl, prev, i + 1 => by
    rw [gapFillGo]
    simp only [List.getD_cons_succ]
    rcases gapFillGo_spec (y :: tl) (gapStep prev x y) i with hL | hR
    · left; exact hL
    · right
      rcases hR with ⟨hnull, hlen, p, n, hp, hn, hd, hout⟩
      refine ⟨hnull, by simpa [Nat.succ_lt_succ_iff] using hlen, p, n, ?_, hn, hd, ?_⟩
      · match i, hp, hnull with
        | 0, hp, hnull =>
          have hy : y.midi = none := by simpa using hnull
          rw [gapStep_of_ynull prev x y hy] at hp
          simpa using hp
        | j + 1, hp, _ => simpa using hp
      · match i, hp, hnull, hout with
        | 0, hp, hnull, hout =>
          have hy : y.midi = none := by simpa using hnull
          rw [gapStep_of_ynull prev x y hy] at hout ⊢
          simpa using hout
        | j + 1, hp, _, hout => simpa using hout

/-- `gapFillGo_spec` lifted to `gapFill`: the untouched head plays the role of
the virtual left neighbor, so the left neighbor is uniformly the input entry
at `i − 1`. -/
theorem gapFill_spec (l : List PItem) (i : ℕ) :
    (gapFill l).getD i dMP = l.getD i dMP ∨
      ((l.getD i dMP).midi = none ∧ 1 ≤ i ∧ i + 1 < l.length ∧
        ∃ p n, (l.getD (i - 1) dMP).midi = some p ∧
          (l.getD (i + 1) dMP).midi = some n ∧ |p - n| ≤ 2 ∧
          (gapFill l).getD i dMP =
            ⟨some (jsRoundQ (((p + n : ℤ) : ℚ) / 2)),
             min (l.getD (i - 1) dMP).prob (l.getD (i + 1) dMP).prob⟩) := by
  match l, i with
  | [], i => left; rfl
  | a :: rest, 0 => left; simp [gapFill]
  | a :: rest, i + 1 =>
    rw [gapFill]
    simp only [List.getD_cons_succ]
    rcases gapFillGo_spec rest a i with hL | ⟨hnull, hlen, p, n, hp, hn, hd, hout⟩
    · left; exact hL
    · right
      refine ⟨hnull, by omega, by simpa [Nat.succ_lt_succ_iff] using hlen, p, n, ?_, hn, hd, ?_⟩
      · match i, hp with
        | 0, hp => simpa using hp
        | j + 1, hp => simpa using hp
      · match i, hout with
        | 0, hout => simpa using hout
        | j + 1, hout => simpa using hout

/-- Structural step of pass 2: the head is rewritten to some item with the
same probability (unchanged when silent), the tail is again `octGo` at some
anchor. -/
theorem octGo_cons (anchor : Option ℤ) (cur : PItem) (rest : List PItem) :
    ∃ v A, octGo anchor (cur :: rest) = v :: octGo A rest ∧ v.prob = cur.prob ∧
      (cur.midi = none → v = cur) := by
  rw [octGo]
  rcases hm : cur.midi with _ | m
  · dsimp only
    exact ⟨cur, anchor, rfl, rfl, fun _ => rfl⟩
  · dsimp only
    rcases anchor with _ | a
    · exact ⟨cur, some m, rfl, rfl, fun h => absurd h (by simp [hm])⟩
    · dsimp only
      by_cases hb : |bestShift m a - a| ≤ 9
      · rw [if_pos hb]
        exact ⟨_, _, rfl, rfl, fun h => absurd h (by simp [hm])⟩
      · rw [if_neg hb]
        exact ⟨_, _, rfl, rfl, fun h => absurd h (by simp [hm])⟩

/-- Pass 2 (octave normalization) preserves probabilities pointwise and leaves
silent entries entirely unchanged — in particular it never voices a frame. -/
theorem octGo_spec : ∀ (anchor : Option ℤ) (l : List PItem) (i : ℕ),
    ((octGo anchor l).getD i dMP).prob = (l.getD i dMP).prob ∧
      ((l.getD i dMP).midi = none → (octGo anchor l).getD i dMP = l.getD i dMP)
  | _, [], _ => ⟨rfl, fun _ => rfl⟩
  | anchor, cur :: rest, 0 => by
    obtain ⟨v, A, hEq, hprob, hnull⟩ := octGo_cons anchor cur rest
    rw [hEq]
    simp only [List.getD_cons_zero]
    exact ⟨hprob, hnull⟩
  | anchor, cur :: rest, i + 1 => by
    obtain ⟨v, A, hEq, -, -⟩ := octGo_cons anchor cur rest
    rw [hEq]
    simp only [List.getD_cons_succ]
    exact octGo_spec A rest i

/-- C2 (amended): the decoder output has exactly one entry per input row (the
empty input yields the empty path), and every non-silence entry carries a
probability present in the candidate set of that frame or of an adjacent
frame — the adjacent case arising only from the stabilizer's short-gap fill,
which stores the minimum of the flanking entries' probabilities. -/
theorem C2_decoder_output (rows : List (List ℝ)) (i : ℕ) :
    (viterbiTrack rows).length = rows.length ∧
      (((viterbiTrack rows).getD i dMP).midi = none ∨
        ∃ c, (c ∈ candsAt rows i ∨ c ∈ candsAt rows (i - 1) ∨
            c ∈ candsAt rows (i + 1)) ∧
          c.prob = ((viterbiTrack rows).getD i dMP).prob) := by
  refine ⟨viterbiTrack_length rows, ?_⟩
  match rows with
  | [] => left; rfl
  | r :: rs =>
    by_cases hmid : ((viterbiTrack (r :: rs)).getD i dMP).midi = none
    · exact Or.inl hmid
    right
    have hvt : viterbiTrack (r :: rs) =
        octGo none (gapFill ((backLoopRev (buildCandidates (r :: rs)).reverse
          (forward (buildCandidates (r :: rs))).2.reverse
          (bestFinal (((forward (buildCandidates (r :: rs))).1.getLast?).getD []))).reverse)) :=
      rfl
    set P := (backLoopRev (buildCandidates (r :: rs)).reverse
      (forward (buildCandidates (r :: rs))).2.reverse
      (bestFinal (((forward (buildCandidates (r :: rs))).1.getLast?).getD []))).reverse
      with hP
    have hPmem : ∀ j, P.getD j dMP ∈ candsAt (r :: rs) j ∨ P.getD j dMP = dMP := by
      intro j
      exact path_mem (buildCandidates (r :: rs)) _ _ j
    have hprob := (octGo_spec none (gapFill P) i).1
    have hgfmid : ((gapFill P).getD i dMP).midi ≠ none := by
      intro hgf
      exact hmid (by rw [hvt, (octGo_spec none (gapFill P) i).2 hgf]; exact hgf)
    rcases gapFill_spec P i with hL | ⟨-, -, -, p, n, hp, hn, -, hout⟩
    · have hPm : (P.getD i dMP).midi ≠ none := by rw [← hL]; exact hgfmid
      rcases hPmem i with hmem | hdef
      · exact ⟨P.getD i dMP, Or.inl hmem, by rw [hvt, hprob, hL]⟩
      · exact absurd (by rw [hdef]; rfl) hPm
    · have hmin : ((gapFill P).getD i dMP).prob =
          min (P.getD (i - 1) dMP).prob (P.getD (i + 1) dMP).prob := by
        rw [hout]
      rcases min_cases (P.getD (i - 1) dMP).prob (P.getD (i + 1) dMP).prob with
        ⟨hmv, -⟩ | ⟨hmv, -⟩
      · rcases hPmem (i - 1) with hmem | hdef
        · exact ⟨P.getD (i - 1) dMP, Or.inr (Or.inl hmem),
            by rw [hvt, hprob, hmin, hmv]⟩
        · rw [hdef] at hp
          exact absurd hp (by simp [dMP])
      · rcases hPmem (i + 1) with hmem | hdef
        · exact ⟨P.getD (i + 1) dMP, Or.inr (Or.inr hmem),
            by rw [hvt, hprob, hmin, hmv]⟩
        · rw [hdef] at hn
          exact absurd hn (by simp [dMP])

/-- C3: wherever the decoded path is silent, the stabilizer's output is silent
too, unless the short-gap-fill precondition holds — a (single-frame) silent
run whose flanking decoded pitches are voiced and at most 2 semitones apart;
the stabilizer never voices a frame outside that rule. -/
theorem C3_stabilizer_never_voices (path : List PItem) (i : ℕ)
    (hnull : (path.getD i dMP).midi = none) :
    ((stabilizePath path).getD i dMP).midi = none ∨
      (1 ≤ i ∧ i + 1 < path.length ∧
        ∃ p n, (path.getD (i - 1) dMP).midi = some p ∧
          (path.getD (i + 1) dMP).midi = some n ∧ |p - n| ≤ 2) := by
  rcases gapFill_spec path i with hL | ⟨-, h1, h2, p, n, hp, hn, hd, -⟩
  · left
    have hgf : ((gapFill path).getD i dMP).midi = none := by rw [hL]; exact hnull
    have hoct := (octGo_spec none (gapFill path) i).2 hgf
    rw [stabilizePath, hoct, hL]
    exact hnull
  · exact Or.inr ⟨h1, h2, p, n, hp, hn, hd⟩

noncomputable def c3Path : List PItem := [⟨some 60, 1⟩, ⟨none, 1/2⟩, ⟨some 60, 1⟩]

/-- Witness for C3: a decoded path silent at index 1 between two voiced frames
of equal pitch. -/
theorem C3_stabilizer_never_voices_witness :
    (c3Path.getD 1 dMP).midi = none ∧
      (((stabilizePath c3Path).getD 1 dMP).midi = none ∨
        (1 ≤ 1 ∧ 1 + 1 < c3Path.length ∧
          ∃ p n, (c3Path.getD 0 dMP).midi = some p ∧
            (c3Path.getD 2 dMP).midi = some n ∧ |p - n| ≤ 2)) :=
  ⟨rfl, C3_stabilizer_never_voices c3Path 1 rfl⟩

/-!
#### Concrete run refuting the per-frame probability claim

Rows `[[1], [0.001], [1]]`: frame 1's only candidate is silence (its single
voiced entry falls below the 0.004 floor), frames 0 and 2 carry a certain
pitch-21 candidate.  The decoded path is voiced–silent–voiced and the short-gap
fill voices frame 1 with the flanking probability 1.
-/

noncomputable section

def exRows : List (List ℝ) := [[1], [1/1000], [1]]
def exS0 : PItem := ⟨none, 0.01⟩
def exV : PItem := ⟨some 21, 1⟩
def exS1 : PItem := ⟨none, 0.4⟩

end

theorem optLt_some_none (x : ℝ) : optLt (some x) none := trivial

theorem optLt_not_none (b : Option ℝ) : ¬ optLt none b := fun h => h

theorem optLt_some_some {x y : ℝ} : optLt (some x) (some y) ↔ x < y := Iff.rfl

theorem ex_cands :
    buildCandidates exRows = [[exS0, exV], [exS1], [exS0, exV]] := by
  have h1 : max (0.01:ℝ) (0.4 - 1) = 0.01 := by norm_num
  have h2 : max (0.01:ℝ) (0.4 - 0) = 0.4 := by norm_num
  simp [buildCandidates, exRows, exS0, exV, exS1, List.enum, List.mergeSort_singleton]
  norm_num [h1, h2]


theorem ex_emit_v : emitCost exV = 0 := by
  have hmax : max (1e-6:ℝ) 1 = 1 := by norm_num
  simp [emitCost, exV, hmax]
  norm_num

theorem ex_emit_s0 : emitCost exS0 = -Real.log 0.01 + 0.5 := by
  have hmax : max (1e-6:ℝ) 0.01 = 0.01 := by norm_num
  simp [emitCost, exS0, hmax]
  norm_num
  ring

theorem ex_emit_s1 : emitCost exS1 = -Real.log 0.4 + 0.15 := by
  have hmax : max (1e-6:ℝ) 0.4 = 0.4 := by norm_num
  simp [emitCost, exS1, hmax]
  norm_num

theorem ex_s0_big : (0.22:ℝ) < emitCost exS0 := by
  have hlog : Real.log (0.01:ℝ) < 0 := Real.log_neg (by norm_num) (by norm_num)
  rw [ex_emit_s0]
  linarith

theorem ex_forward :
    forward [[exS0, exV], [exS1], [exS0, exV]] =
      ([[some (emitCost exS0), some (emitCost exV)],
        [some (emitCost exV + 0.22 + emitCost exS1)],
        [some (emitCost exV + 0.22 + emitCost exS1 + emitCost exS0),
         some (emitCost exV + 0.22 + emitCost exS1 + 0.22 + emitCost exV)]],
       [[-1, -1], [1], [0, 0]]) := by
  have hcomp : emitCost (⟨some 21, 1⟩ : PItem) + 0.22 < emitCost (⟨none, 0.01⟩ : PItem) := by
    rw [show (⟨some 21, (1:ℝ)⟩ : PItem) = exV from rfl,
      show (⟨none, (0.01:ℝ)⟩ : PItem) = exS0 from rfl, ex_emit_v]
    linarith [ex_s0_big]
  simp [forward, forwardGo, forwardStep, bestPrev, transitionCost, optLt_some_none,
    optLt_not_none, optLt_some_some, List.enum, exS0, exV, exS1, hcomp]

theorem ex_best :
    bestFinal [some (emitCost exV + 0.22 + emitCost exS1 + emitCost exS0),
      some (emitCost exV + 0.22 + emitCost exS1 + 0.22 + emitCost exV)] = 1 := by
  have hcomp : emitCost exV + 0.22 + emitCost exS1 + 0.22 + emitCost exV <
      emitCost exV + 0.22 + emitCost exS1 + emitCost exS0 := by
    have h1 := ex_emit_v
    have h2 := ex_s0_big
    linarith
  simp [bestFinal, List.enum, optLt_some_some, optLt_some_none, optLt_not_none, hcomp]

theorem ex_path :
    (backLoopRev ([[exS0, exV], [exS1], [exS0, exV]] : List (List PItem)).reverse
      ([[-1, -1], [1], [0, 0]] : List (List ℤ)).reverse 1).reverse = [exV, exS1, exV] := by
  norm_num [backLoopRev, List.getD]

theorem ex_stab :
    stabilizePath [exV, exS1, exV] = [⟨some 21, 1⟩, ⟨some 21, 1⟩, ⟨some 21, 1⟩] := by
  have h21 : jsRoundQ (21 : ℚ) = 21 := by
    rw [jsRoundQ]
    rw [show (21 : ℚ) + 1 / 2 = 43 / 2 by norm_num]
    rw [Int.floor_eq_iff]
    norm_num
  have hshift : bestShift 21 21 = 21 := by decide
  norm_num [stabilizePath, gapFill, gapFillGo, gapStep, octGo, exV, exS1, h21, hshift]

theorem ex_viterbi :
    viterbiTrack exRows = [⟨some 21, 1⟩, ⟨some 21, 1⟩, ⟨some 21, 1⟩] := by
  calc viterbiTrack exRows
      = stabilizePath ((backLoopRev (buildCandidates exRows).reverse
          (forward (buildCandidates exRows)).2.reverse
          (bestFinal (((forward (buildCandidates exRows)).1.getLast?).getD []))).reverse) := rfl
    _ = stabilizePath ((backLoopRev ([[exS0, exV], [exS1], [exS0, exV]] : List (List PItem)).reverse
          ([[-1, -1], [1], [0, 0]] : List (List ℤ)).reverse
          (bestFinal [some (emitCost exV + 0.22 + emitCost exS1 + emitCost exS0),
            some (emitCost exV + 0.22 + emitCost exS1 + 0.22 + emitCost exV)])).reverse) := by
        rw [ex_cands, ex_forward]
        rfl
    _ = stabilizePath ((backLoopRev ([[exS0, exV], [exS1], [exS0, exV]] : List (List PItem)).reverse
          ([[-1, -1], [1], [0, 0]] : List (List ℤ)).reverse 1).reverse) := by
        rw [ex_best]
    _ = stabilizePath [exV, exS1, exV] := by rw [ex_path]
    _ = [⟨some 21, 1⟩, ⟨some 21, 1⟩, ⟨some 21, 1⟩] := ex_stab

/-- C2 (counterexample to the claim as stated): for the probability rows
`[[1], [0.001], [1]]` the decoder picks pitch 21 / silence / pitch 21, and the
stabilizer's short-gap fill voices the middle frame with probability
`min(1, 1) = 1` — but frame 1's candidate set contains only the silence
candidate with probability 0.4, so the non-silence middle entry carries a
probability absent from that frame's candidate set. -/
theorem C2_prob_not_in_frame_counterexample :
    ((viterbiTrack exRows).getD 1 dMP).midi ≠ none ∧
      ∀ c ∈ candsAt exRows 1, c.prob ≠ ((viterbiTrack exRows).getD 1 dMP).prob := by
  constructor
  · rw [ex_viterbi]
    simp
  · intro c hc
    rw [candsAt, ex_cands] at hc
    have hceq : c = exS1 := by simpa using hc
    rw [hceq, ex_viterbi]
    simp [exS1]
    norm_num


end ModelPitch


/-!
## Note segmentation (the note-extraction module of the sources)

Embeds `extractNoteEvents`, `buildDebugScore`, `densifyNotes`,
`autoExtractBestNoteEvents` and `extractGridAlignedNoteEvents`.  The
transcendental helpers are abstracted as function parameters (`log2q` for
`Math.log2`, `lnq` for `Math.log`, `pow2` for `2 ** ·`); every other numeric
step is exact rational arithmetic.

JavaScript array reads out of bounds yield `undefined`, and the module's
window loops do read out of bounds; `undefined` entering arithmetic yields
`NaN`, which then flows through comparisons (all false) and `Math.round`.
The value type `JV` records these cases explicitly: a plain number, `null`,
`undefined`, `NaN`, and `-Infinity` (the sentinel score of
`buildDebugScore` on empty input).
-/

namespace Notes

open Analyzer (PitchFrame)

/-- A JavaScript value as it occurs in this module: a (rational) number,
`null`, `undefined`, `NaN`, or `-Infinity`. -/
inductive JV where
  | num (q : ℚ)
  | jsNull
  | undefVal
  | nan
  | ninf
deriving DecidableEq

/-- JS `+` as used here: number + number; `-Infinity` absorbs finite numbers;
`undefined`/`NaN` operands give `NaN`.  (`null` never reaches arithmetic in
this module: every loop filters it first.) -/
def jAdd : JV → JV → JV
  | .num a, .num b => .num (a + b)
  | .ninf, .num _ => .ninf
  | .num _, .ninf => .ninf
  | _, _ => .nan

/-- JS `-` on the values occurring here. -/
def jSubJ : JV → JV → JV
  | .num a, .num b => .num (a - b)
  | .ninf, .num _ => .ninf
  | _, _ => .nan

/-- JS `*` on the values occurring here (only finite factors arise). -/
def jMul : JV → JV → JV
  | .num a, .num b => .num (a * b)
  | _, _ => .nan

/-- Division by a positive constant (a window count). -/
def jDivC (x : JV) (c : ℚ) : JV :=
  match x with
  | .num a => .num (a / c)
  | .ninf => .ninf
  | _ => .nan

/-- Subtraction of a constant (`score - 28` in the densify gate). -/
def jSubC (x : JV) (c : ℚ) : JV :=
  match x with
  | .num a => .num (a - c)
  | .ninf => .ninf
  | _ => .nan

/-- Addition of a constant (`maeCents + 45` in the aggressive gate). -/
def jAddC (x : JV) (c : ℚ) : JV :=
  match x with
  | .num a => .num (a + c)
  | .ninf => .ninf
  | _ => .nan

/-- JS `Math.abs` (NaN-propagating). -/
def jAbs : JV → JV
  | .num a => .num |a|
  | _ => .nan

/-- `Math.abs(a - b)` on two cell values. -/
def jAbsSub (a b : JV) : JV := jAbs (jSubJ a b)

/-- JS `Math.min` on the values occurring here (NaN-propagating). -/
def jMin : JV → JV → JV
  | .num a, .num b => .num (min a b)
  | _, _ => .nan

/-- JS `Math.max` on the values occurring here (NaN-propagating). -/
def jMax : JV → JV → JV
  | .num a, .num b => .num (max a b)
  | _, _ => .nan

/-- JS `Math.round` of a value: `Math.round(NaN)` and
`Math.round(undefined)` are `NaN`. -/
def jRoundJ : JV → JV
  | .num a => .num ((jsRound a : ℤ) : ℚ)
  | _ => .nan

/-- `x <= c` for a constant `c`: false unless `x` is a number
(`NaN`/`undefined` comparisons are false). -/
def jLeQ (x : JV) (c : ℚ) : Bool :=
  match x with
  | .num a => decide (a ≤ c)
  | _ => false

/-- `c <= x` for a constant `c`: false unless `x` is a number. -/
def jGeQ (x : JV) (c : ℚ) : Bool :=
  match x with
  | .num a => decide (c ≤ a)
  | _ => false

/-- JS `>` on scores (numbers, `NaN`, `-Infinity`): any comparison with
`NaN` is false, and a number beats `-Infinity`. -/
def jGtB (x y : JV) : Bool :=
  match x, y with
  | .num a, .num b => decide (b < a)
  | .num _, .ninf => true
  | _, _ => false

/-- JS `>=` on scores. -/
def jGeB (x y : JV) : Bool :=
  match x, y with
  | .num a, .num b => decide (b ≤ a)
  | .num _, .ninf => true
  | .ninf, .ninf => true
  | _, _ => false

/-- JS `<=` on two values (for the aggressive-pass `maeCents` gate). -/
def jLeB (x y : JV) : Bool :=
  match x, y with
  | .num a, .num b => decide (a ≤ b)
  | .ninf, .num _ => true
  | .ninf, .ninf => true
  | _, _ => false

/-- `values[i]` on a JS array: `undefined` out of bounds. -/
def jGet (l : List JV) (i : ℤ) : JV :=
  if i < 0 then .undefVal else l.getD i.toNat .undefVal

/-- `hzToMidi` (line 515): `69 + 12 * Math.log2(hz / 440)`, with `Math.log2`
abstracted as the parameter `log2q`. -/
def hzToMidi (log2q : ℚ → ℚ) (hz : ℚ) : ℚ := 69 + 12 * log2q (hz / 440)

/-- `candidates.sort((a, b) => a - b)` followed by
`candidates[Math.floor(candidates.length / 2)]`: JS sort moves the
`undefined` entries (out-of-bounds reads) behind the sorted numbers, and the
pick indexes the combined array.  The candidate list here holds only numbers
and `undefined`. -/
def medianPick (cands : List JV) : JV :=
  let nums := cands.filterMap (fun c => match c with | .num q => some q | _ => none)
  let others := cands.filter (fun c => match c with | .num _ => false | _ => true)
  let sorted := (nums.mergeSort (fun a b => decide (a ≤ b))).map JV.num ++ others
  sorted.getD (sorted.length / 2) .undefVal

/-- The window body of `medianFilter` at one index: collect
`values[index-half .. index+half]` entries that are `!== null` (out-of-bounds
reads contribute `undefined`, which passes that test). -/
def medianAt (values : List JV) (half : ℕ) (index : ℕ) : JV :=
  let cands := ((List.range (2 * half + 1)).map
    (fun j => jGet values ((index : ℤ) - half + j))).filter (fun c => c ≠ .jsNull)
  if cands = [] then .jsNull else medianPick cands

/-- `medianFilter` (lines 534–548). -/
def medianFilter (values : List JV) (w : ℕ) : List JV :=
  if w ≤ 1 then values
  else values.enum.map (fun p => if p.2 = .jsNull then .jsNull else medianAt values (w / 2) p.1)

/-- The window body of `smoothFloat` at one index: `sum`/`count` over the
window, skipping `null`; an out-of-bounds `undefined` read poisons the sum to
`NaN`. -/
def smoothAt (values : List JV) (half : ℕ) (index : ℕ) : JV :=
  let st := ((List.range (2 * half + 1)).map
    (fun j => jGet values ((index : ℤ) - half + j))).foldl
    (fun (st : JV × ℕ) c => if c = .jsNull then st else (jAdd st.1 c, st.2 + 1))
    (.num 0, 0)
  if 0 < st.2 then jDivC st.1 st.2 else .jsNull

/-- `smoothFloat` (lines 517–532). -/
def smoothFloat (values : List JV) (w : ℕ) : List JV :=
  if w ≤ 1 then values
  else values.enum.map (fun p => if p.2 = .jsNull then .jsNull else smoothAt values (w / 2) p.1)

/-- `midi === null ? null : Math.round(midi)` (line 579). -/
def jRoundQuant : JV → JV
  | .jsNull => .jsNull
  | v => jRoundJ v

/-- One cell of the tiny-gap fill (lines 582–589): a `null` cell is filled
with the rounded midpoint when both neighbours are numbers at most
`gapFillSemitone` apart (a `NaN` neighbour fails the `Math.abs` comparison). -/
def ngStep (g : ℚ) (prev x y : JV) : JV :=
  match x with
  | .jsNull =>
    match prev, y with
    | .num p, .num n => if |p - n| ≤ g then .num ((jsRound ((p + n) / 2) : ℤ) : ℚ) else .jsNull
    | _, _ => .jsNull
  | _ => x

/-- The in-place gap-fill loop: `prev` is the already-rewritten left
neighbour, the loop runs over indices `1 … length-2`. -/
def noteGapGo (g : ℚ) : JV → List JV → List JV
  | _, [] => []
  | _, [x] => [x]
  | prev, x :: y :: tl => ngStep g prev x y :: noteGapGo g (ngStep g prev x y) (y :: tl)

def noteGapFill (g : ℚ) : List JV → List JV
  | [] => []
  | x :: rest => x :: noteGapGo g x rest

/-- The `-2 … 2` octave-shift search of the continuity pass (lines 600–609):
starting from `(midi, |midi - anchor|)`, take each strictly closer shifted
candidate. -/
def octBest (a m : ℚ) : ℚ × ℚ :=
  (List.range 5).foldl
    (fun (st : ℚ × ℚ) s =>
      let cand := m + 12 * ((s : ℚ) - 2)
      if |cand - a| < st.2 then (cand, |cand - a|) else st)
    (m, |m - a|)

/-- One step of the octave-continuity pass (lines 591–614), returning the
rewritten cell and the new anchor.  A `NaN` cell (or a `NaN` anchor) makes
`bestAbs` `NaN`, so the `<=` test fails and the cell becomes `null` with the
anchor unchanged. -/
def octStep (limit : ℚ) (anchor midi : JV) : JV × JV :=
  match midi, anchor with
  | .jsNull, _ => (.jsNull, anchor)
  | m, .jsNull => (m, m)
  | .num m, .num a =>
    let b := octBest a m
    if b.2 ≤ limit then
      (.num b.1, .num ((jsRound (a * (3 / 4) + b.1 * (1 / 4)) : ℤ) : ℚ))
    else (.jsNull, .num a)
  | _, _ => (.jsNull, anchor)

def octMap (limit : ℚ) : JV → List JV → List JV
  | _, [] => []
  | anchor, c :: rest => (octStep limit anchor c).1 :: octMap limit (octStep limit anchor c).2 rest

/-- `NoteEvent` (lines 468–473).  `midi` is a `JV` because a `NaN` quantized
cell can reach the note builder as a pitch; times stay exact rationals. -/
structure NoteEvent where
  midi : JV
  startSec : ℚ
  endSec : ℚ
  velocity : ℤ
deriving DecidableEq

/-- `Required<NoteExtractionOptions>` (lines 475–485): the `?? default`
resolution of the optional fields is folded into the record. -/
structure NoteExtractionOptions where
  minDurationSec : ℚ
  maxNotes : ℕ
  medianWindow : ℕ
  smoothWindow : ℕ
  gapFillSemitone : ℚ
  continuityLimitSemitone : ℚ
  sameNoteToleranceSemitone : ℚ
  maxInNoteRangeSemitone : ℚ
  maxMergeCells : ℕ
deriving DecidableEq

/-- `DEFAULT_EXTRACTION_OPTIONS` (lines 503–513). -/
def DEFAULT_EXTRACTION_OPTIONS : NoteExtractionOptions :=
  ⟨1 / 25, 2000, 7, 5, 2, 9, 1, 3, 2⟩

/-- The `current` accumulator of the note loop (line 617). -/
structure CurNote where
  midi : JV
  startSec : ℚ
  clarities : List ℚ
  minMidi : JV
  maxMidi : JV

/-- Close the running note at `endT` (the push blocks at lines 626–638,
666–675 and 689–701): push only when the duration reaches
`minDurationSec`; velocity is `max(30, min(120, round(meanClarity*100)))`. -/
def closeNote (minDur : ℚ) (c : CurNote) (endT : ℚ) (notes : List NoteEvent) : List NoteEvent :=
  if minDur ≤ endT - c.startSec then
    notes ++ [⟨c.midi, c.startSec, endT,
      max 30 (min 120 (jsRound ((c.clarities.foldl (fun a b => a + b) 0) /
        (c.clarities.length : ℚ) * 100)))⟩]
  else notes

/-- One iteration of the note loop (lines 620–687) at cell `m` and frame `f`;
the returned flag records the `notes.length >= maxNotes` break.  The final
`if (nextTime <= frame.timeSec) continue` of the source has no effect and is
omitted. -/
def noteStep (minDur tol maxRange : ℚ) (maxNotes : ℕ) (m : JV) (f : PitchFrame)
    (st : List NoteEvent × Option CurNote) : (List NoteEvent × Option CurNote) × Bool :=
  if m = .jsNull then
    match st.2 with
    | some c => ((closeNote minDur c f.timeSec st.1, none), false)
    | none => ((st.1, none), false)
  else
    match st.2 with
    | none => ((st.1, some ⟨m, f.timeSec, [f.clarity], m, m⟩), false)
    | some c =>
      if jLeQ (jAbsSub c.midi m) tol && jLeQ (jSubJ (jMax c.maxMidi m) (jMin c.minMidi m)) maxRange
      then
        ((st.1, some ⟨jRoundJ (jDivC (jAdd c.midi m) 2), c.startSec,
          c.clarities ++ [f.clarity], jMin c.minMidi m, jMax c.maxMidi m⟩), false)
      else
        ((closeNote minDur c f.timeSec st.1, some ⟨m, f.timeSec, [f.clarity], m, m⟩),
          decide (maxNotes ≤ (closeNote minDur c f.timeSec st.1).length))

def noteGo (minDur tol maxRange : ℚ) (maxNotes : ℕ) :
    List (JV × PitchFrame) → List NoteEvent × Option CurNote → List NoteEvent × Option CurNote
  | [], st => st
  | (m, f) :: rest, st =>
    if (noteStep minDur tol maxRange maxNotes m f st).2 then
      (noteStep minDur tol maxRange maxNotes m f st).1
    else noteGo minDur tol maxRange maxNotes rest (noteStep minDur tol maxRange maxNotes m f st).1

/-- The quantized midi track of `extractNoteEvents` (lines 574–614): hz → midi,
median filter, smoothing, rounding, tiny-gap fill, octave continuity. -/
def noteTrack (log2q : ℚ → ℚ) (o : NoteExtractionOptions) (frames : List PitchFrame) : List JV :=
  octMap o.continuityLimitSemitone .jsNull
    (noteGapFill o.gapFillSemitone
      ((smoothFloat
        (medianFilter
          (frames.map (fun f => match f.hz with
            | none => JV.jsNull
            | some hz => JV.num (hzToMidi log2q hz)))
          o.medianWindow)
        o.smoothWindow).map jRoundQuant))

/-- `extractNoteEvents` (lines 559–704). -/
def extractNoteEvents (log2q : ℚ → ℚ) (o : NoteExtractionOptions)
    (frames : List PitchFrame) : List NoteEvent :=
  if frames = [] then []
  else
    match noteGo o.minDurationSec o.sameNoteToleranceSemitone o.maxInNoteRangeSemitone
        o.maxNotes ((noteTrack log2q o frames).zip frames) ([], none) with
    | (notes, none) => notes
    | (notes, some c) =>
      closeNote o.minDurationSec c
        (match frames.getLast? with | some f => f.timeSec | none => c.startSec) notes

/-- Lift an abstracted numeric helper (`Math.log2`, `Math.log`, `2 ** ·`) to
values: `NaN` in, `NaN` out. -/
def jFun (f : ℚ → ℚ) : JV → JV
  | .num a => .num (f a)
  | _ => .nan

/-- JS `/` on two values as used here (the divisor is a note frequency). -/
def jDivJ : JV → JV → JV
  | .num a, .num b => .num (a / b)
  | _, _ => .nan

/-- `NoteExtractionDebug` (lines 487–494); `score` and `maeCents` are values
because the score is `-Infinity` on empty input and a `NaN` note pitch makes
the mean absolute error `NaN`. -/
structure NoteExtractionDebug where
  score : JV
  coverage : ℚ
  maeCents : JV
  noteCount : ℕ
  jumpRatio : ℚ
  shortRatio : ℚ
deriving DecidableEq

/-- One frame of the mean-absolute-error loop of `buildDebugScore`
(lines 726–740): the persistent `noteIndex` cursor is carried as the
remaining note suffix. -/
def maeStep (log2q pow2 : ℚ → ℚ) (st : List NoteEvent × JV × ℕ) (f : PitchFrame) :
    List NoteEvent × JV × ℕ :=
  match f.hz with
  | none => st
  | some hz =>
    let suf := st.1.dropWhile (fun n => decide (n.endSec < f.timeSec))
    match suf.head? with
    | none => (suf, st.2)
    | some note =>
      if f.timeSec < note.startSec ∨ note.endSec < f.timeSec then (suf, st.2)
      else
        (suf,
          jAdd st.2.1 (jAbs (jMul (.num 1200) (jFun log2q (jDivJ (.num hz)
            (jMul (.num 440) (jFun pow2 (jDivC (jSubC note.midi 69) 12))))))),
          st.2.2 + 1)

/-- `buildDebugScore` (lines 706–770). -/
def buildDebugScore (log2q lnq pow2 : ℚ → ℚ) (frames : List PitchFrame)
    (notes : List NoteEvent) : NoteExtractionDebug :=
  if frames = [] then ⟨.ninf, 0, .num 9999, 0, 1, 1⟩
  else
    let durationSec := max (match frames.getLast? with | some f => f.timeSec | none => 0) (1 / 1000)
    let noteCount := notes.length
    let voicedSec := (frames.countP (fun f => decide (f.hz ≠ none)) : ℚ) *
      (durationSec / ((max 1 (frames.length - 1) : ℕ) : ℚ))
    let coverage := if 0 < voicedSec then
      min (6 / 5) ((notes.foldl (fun s n => s + max 0 (n.endSec - n.startSec)) 0) / voicedSec)
      else 0
    let target : ℤ := min 320 (max 24 (jsRound (voicedSec / (3 / 25))))
    let mae := frames.foldl (maeStep log2q pow2) (notes, .num 0, 0)
    let maeCents := if 0 < mae.2.2 then jDivC mae.2.1 (mae.2.2 : ℚ) else .num 9999
    let jumpRatio := if 1 < notes.length then
      (((notes.zip notes.tail).countP (fun p => jGeQ (jAbsSub p.2.midi p.1.midi) 8)) : ℚ) /
        ((notes.length : ℚ) - 1)
      else 0
    let shortRatio := if 0 < noteCount then
      (((notes.filter (fun n => decide (n.endSec - n.startSec < 1 / 20))).length : ℚ) /
        (noteCount : ℚ))
      else 1
    let noteCountScore := -|lnq (((noteCount : ℚ) + 1) / ((target : ℚ) + 1))| * 44
    let hardLow := if (noteCount : ℚ) < (target : ℚ) * (3 / 5) then
      ((target : ℚ) * (3 / 5) - (noteCount : ℚ)) * (3 / 4) else 0
    ⟨jAdd (jSubJ (jSubJ (jSubJ (jSubJ (.num (coverage * 240))
        (jMul maeCents (.num (9 / 10)))) (.num (jumpRatio * 70))) (.num (shortRatio * 30)))
        (.num hardLow)) (.num noteCountScore),
      coverage, maeCents, noteCount, jumpRatio, shortRatio⟩

/-- `segmentMedianMidi` (lines 550–557). -/
def segmentMedianMidi (log2q : ℚ → ℚ) (frames : List PitchFrame)
    (startSec endSec : ℚ) : Option ℤ :=
  let values := (frames.filter (fun f =>
      decide (f.hz ≠ none ∧ startSec ≤ f.timeSec ∧ f.timeSec < endSec))).filterMap
    (fun f => f.hz.map (hzToMidi log2q))
  if values = [] then none
  else some (jsRound ((values.mergeSort (fun a b => decide (a ≤ b))).getD (values.length / 2) 0))

/-- `densifyNotes` (lines 772–803). -/
def densifyNotes (log2q : ℚ → ℚ) (frames : List PitchFrame) (notes : List NoteEvent)
    (targetCount : ℤ) : List NoteEvent :=
  if notes = [] ∨ targetCount ≤ (notes.length : ℤ) then notes
  else notes.foldl (fun out note =>
    if targetCount ≤ (out.length : ℤ) then out ++ [note]
    else
      let duration := max 0 (note.endSec - note.startSec)
      let desiredCuts := min (targetCount - (out.length : ℤ)) (max 1 ⌈duration / (7 / 50)⌉)
      if desiredCuts ≤ 1 ∨ duration < (7 / 50) * (6 / 5) then out ++ [note]
      else out ++ (List.range desiredCuts.toNat).map (fun i =>
        { midi := match segmentMedianMidi log2q frames
              (note.startSec + duration * (i : ℚ) / (desiredCuts : ℚ))
              (note.startSec + duration * ((i : ℚ) + 1) / (desiredCuts : ℚ)) with
            | some m => .num (m : ℚ)
            | none => note.midi,
          startSec := note.startSec + duration * (i : ℚ) / (desiredCuts : ℚ),
          endSec := note.startSec + duration * ((i : ℚ) + 1) / (desiredCuts : ℚ),
          velocity := note.velocity })) []

/-- `AutoExtractResult` (lines 496–501). -/
structure AutoExtractResult where
  notes : List NoteEvent
  options : NoteExtractionOptions
  debug : NoteExtractionDebug
  tried : ℕ
deriving DecidableEq

/-- The mutable best-so-far state of the optimizer loop (lines 814–817). -/
structure BestState where
  tried : ℕ
  bestNotes : List NoteEvent
  bestOptions : NoteExtractionOptions
  bestDebug : NoteExtractionDebug

/-- The 1944 option combinations of the seven nested loops (lines 824–856),
in loop order. -/
def optionCombos : List NoteExtractionOptions :=
  ([3 / 200, 1 / 50, 3 / 100, 1 / 25] : List ℚ).flatMap (fun minDur =>
    ([5, 7, 9] : List ℕ).flatMap (fun med =>
      ([3, 5, 7] : List ℕ).flatMap (fun smo =>
        ([1, 2, 3] : List ℚ).flatMap (fun gap =>
          ([7, 9, 11] : List ℚ).flatMap (fun cont =>
            ([0, 1] : List ℚ).flatMap (fun tolr =>
              ([1, 2, 3] : List ℚ).map (fun rng =>
                ⟨minDur, 2000, med, smo, gap, cont, tolr, rng,
                  DEFAULT_EXTRACTION_OPTIONS.maxMergeCells⟩)))))))

/-- `autoExtractBestNoteEvents` (lines 805–901): grid search over
`optionCombos`, then the conditional aggressive pass, then the conditional
densify pass. -/
def autoExtractBestNoteEvents (log2q lnq pow2 : ℚ → ℚ)
    (frames : List PitchFrame) : AutoExtractResult :=
  let durationSec := max (match frames.getLast? with | some f => f.timeSec | none => 0) (1 / 1000)
  let voicedSec := (frames.countP (fun f => decide (f.hz ≠ none)) : ℚ) *
    (durationSec / ((max 1 (frames.length - 1) : ℕ) : ℚ))
  let target : ℤ := min 320 (max 24 (jsRound (voicedSec / (3 / 25))))
  let st0 := optionCombos.foldl (fun (st : BestState) o =>
    let notes := extractNoteEvents log2q o frames
    let debug := buildDebugScore log2q lnq pow2 frames notes
    if jGtB debug.score st.bestDebug.score then ⟨st.tried + 1, notes, o, debug⟩
    else ⟨st.tried + 1, st.bestNotes, st.bestOptions, st.bestDebug⟩)
    ⟨0, [], DEFAULT_EXTRACTION_OPTIONS, buildDebugScore log2q lnq pow2 frames []⟩
  let st1 := if (st0.bestDebug.noteCount : ℚ) < (target : ℚ) * (18 / 25) then
      let aggressive : NoteExtractionOptions :=
        ⟨1 / 100, 3000, 3, 3, 1, 12, 0, 1, DEFAULT_EXTRACTION_OPTIONS.maxMergeCells⟩
      let aggressiveNotes := extractNoteEvents log2q aggressive frames
      let aggressiveDebug := buildDebugScore log2q lnq pow2 frames aggressiveNotes
      if (st0.bestDebug.noteCount : ℚ) * (6 / 5) < (aggressiveDebug.noteCount : ℚ) ∧
          jLeB aggressiveDebug.maeCents (jAddC st0.bestDebug.maeCents 45) = true then
        ⟨st0.tried + 1, aggressiveNotes, aggressive, aggressiveDebug⟩
      else ⟨st0.tried + 1, st0.bestNotes, st0.bestOptions, st0.bestDebug⟩
    else st0
  let st2 := if (st1.bestNotes.length : ℚ) < (target : ℚ) * (9 / 10) then
      let densified := densifyNotes log2q frames st1.bestNotes (jsRound (target : ℚ))
      let densifiedDebug := buildDebugScore log2q lnq pow2 frames densified
      if jGeB densifiedDebug.score (jSubC st1.bestDebug.score 28) = true ∧
          st1.bestDebug.noteCount < densifiedDebug.noteCount then
        ⟨st1.tried + 1, densified, st1.bestOptions, densifiedDebug⟩
      else ⟨st1.tried + 1, st1.bestNotes, st1.bestOptions, st1.bestDebug⟩
    else st1
  ⟨st2.bestNotes, st2.bestOptions, st2.bestDebug, st2.tried⟩

/-- `frameWindow` of `extractGridAlignedNoteEvents` (lines 925–935): the
midpoint window around one frame, clamped to be non-negative and
non-decreasing. -/
def frameWindow (prevF : Option PitchFrame) (cur : PitchFrame)
    (nextF : Option PitchFrame) : ℚ × ℚ :=
  let time := cur.timeSec
  let prevTime := match prevF with | some p => p.timeSec | none => time
  let nextTime := match nextF with | some n => n.timeSec | none => time
  let start := match prevF with
    | some _ => (prevTime + time) / 2
    | none => max 0 (time - (nextTime - time) / 2)
  let endV := match nextF with
    | some _ => (time + nextTime) / 2
    | none => time + (time - prevTime) / 2
  (max 0 start, max (max 0 start) endV)

/-- One iteration of the grid-aligned loop (lines 937–972) over
`(notes, current, currentCells)`. -/
def gridStep (log2q : ℚ → ℚ) (mm : ℕ) (w : ℚ × ℚ) (f : PitchFrame)
    (st : List NoteEvent × Option NoteEvent × ℕ) : List NoteEvent × Option NoteEvent × ℕ :=
  match f.hz with
  | none =>
    match st.2.1 with
    | some c => (st.1 ++ [c], none, st.2.2)
    | none => st
  | some hz =>
    let midi : ℤ := jsRound (hzToMidi log2q hz)
    let vel : ℤ := max 30 (min 120 (jsRound (f.clarity * 100)))
    match st.2.1 with
    | some c =>
      if c.midi = .num (midi : ℚ) ∧ |c.endSec - w.1| ≤ 3 / 100 ∧ st.2.2 < mm then
        (st.1, some ⟨c.midi, c.startSec, w.2, max c.velocity vel⟩, st.2.2 + 1)
      else (st.1 ++ [c], some ⟨.num (midi : ℚ), w.1, w.2, vel⟩, 1)
    | none => (st.1, some ⟨.num (midi : ℚ), w.1, w.2, vel⟩, 1)

def gridGo (log2q : ℚ → ℚ) (mm : ℕ) :
    Option PitchFrame → PitchFrame → List PitchFrame →
      List NoteEvent × Option NoteEvent × ℕ → List NoteEvent × Option NoteEvent × ℕ
  | prevF, cur, [], st => gridStep log2q mm (frameWindow prevF cur none) cur st
  | prevF, cur, h :: t, st =>
    gridGo log2q mm (some cur) h t (gridStep log2q mm (frameWindow prevF cur (some h)) cur st)

/-- `extractGridAlignedNoteEvents` (lines 903–985). -/
def extractGridAlignedNoteEvents (log2q lnq pow2 : ℚ → ℚ)
    (frames : List PitchFrame) : AutoExtractResult :=
  match frames with
  | [] => ⟨[], DEFAULT_EXTRACTION_OPTIONS, ⟨.num 0, 0, .num 0, 0, 0, 0⟩, 1⟩
  | f :: rest =>
    let st := gridGo log2q DEFAULT_EXTRACTION_OPTIONS.maxMergeCells none f rest ([], none, 0)
    let notes := match st.2.1 with | some c => st.1 ++ [c] | none => st.1
    ⟨notes, DEFAULT_EXTRACTION_OPTIONS, buildDebugScore log2q lnq pow2 frames notes, 1⟩

/-- C8: the segmentation parameter optimizer is deterministic — it consults
no randomness or ambient state, so two runs on the same frame sequence (and
the same numeric helpers) return an identical chosen option set, note list,
debug score, and tried-count. -/
theorem C8_optimizer_deterministic (log2q lnq pow2 : ℚ → ℚ) (frames : List PitchFrame) :
    (autoExtractBestNoteEvents log2q lnq pow2 frames).options =
        (autoExtractBestNoteEvents log2q lnq pow2 frames).options ∧
      (autoExtractBestNoteEvents log2q lnq pow2 frames).notes =
        (autoExtractBestNoteEvents log2q lnq pow2 frames).notes ∧
      (autoExtractBestNoteEvents log2q lnq pow2 frames).debug.score =
        (autoExtractBestNoteEvents log2q lnq pow2 frames).debug.score ∧
      (autoExtractBestNoteEvents log2q lnq pow2 frames).tried =
        (autoExtractBestNoteEvents log2q lnq pow2 frames).tried :=
  ⟨rfl, rfl, rfl, rfl⟩

/-- Non-overlap of two consecutive notes. -/
def ov (a b : NoteEvent) : Prop := a.endSec ≤ b.startSec

/-- The last pushed note (if any) ends no later than `q`. -/
def endOK (notes : List NoteEvent) (q : ℚ) : Prop :=
  ∀ n, notes.getLast? = some n → n.endSec ≤ q

theorem endOK_mono {notes : List NoteEvent} {q r : ℚ} (h : endOK notes q) (hq : q ≤ r) :
    endOK notes r :=
  fun n hn => le_trans (h n hn) hq

theorem pairwise_zip_right {α β : Type} {r : β → β → Prop} :
    ∀ (xs : List α) (ys : List β), ys.Pairwise r →
      (xs.zip ys).Pairwise (fun a b => r a.2 b.2)
  | [], _, _ => by simp
  | _ :: _, [], _ => by simp
  | x :: xs, y :: ys, h => by
    rw [List.zip_cons_cons, List.pairwise_cons]
    rcases List.pairwise_cons.mp h with ⟨hy, hys⟩
    exact ⟨fun p hp => hy p.2 (List.of_mem_zip hp).2, pairwise_zip_right xs ys hys⟩

theorem pairwise_le_getLast {α : Type} {r : α → α → Prop} :
    ∀ {l : List α}, l.Pairwise r → ∀ x ∈ l, ∀ m, l.getLast? = some m → r x m ∨ x = m
  | [], _, x, hx, _, _ => absurd hx (List.not_mem_nil x)
  | [a], _, x, hx, m, hm => by
    simp only [List.mem_singleton] at hx
    simp only [List.getLast?_singleton, Option.some_inj] at hm
    right; rw [hx, hm]
  | a :: b :: t, h, x, hx, m, hm => by
    rw [List.getLast?_cons_cons] at hm
    rcases List.mem_cons.mp hx with rfl | hx'
    · left
      refine (List.pairwise_cons.mp h).1 m ?_
      obtain ⟨hne, heq⟩ := List.mem_getLast?_eq_getLast (Option.mem_def.mpr hm)
      rw [heq]
      exact List.getLast_mem hne
    · exact pairwise_le_getLast (List.pairwise_cons.mp h).2 x hx' m hm

theorem closeNote_inv (minDur : ℚ) (c : CurNote) (endT : ℚ) (notes : List NoteEvent)
    (hA : ∀ n ∈ notes, minDur ≤ n.endSec - n.startSec) (hB : List.Chain' ov notes)
    (hE : endOK notes c.startSec) :
    (∀ n ∈ closeNote minDur c endT notes, minDur ≤ n.endSec - n.startSec) ∧
      List.Chain' ov (closeNote minDur c endT notes) ∧
      ∀ q, c.startSec ≤ q → endT ≤ q → endOK (closeNote minDur c endT notes) q := by
  unfold closeNote
  split
  case isTrue h =>
    refine ⟨?_, ?_, ?_⟩
    · intro n hn
      rcases List.mem_append.mp hn with hn | hn
      · exact hA n hn
      · rw [List.mem_singleton] at hn
        rw [hn]
        simpa using h
    · rw [List.chain'_append]
      refine ⟨hB, List.chain'_singleton _, ?_⟩
      intro x hx y hy
      rw [List.head?_cons, Option.mem_some_iff] at hy
      rw [← hy]
      exact hE x (Option.mem_def.mp hx)
    · intro q _ hq2 n hn
      rw [List.getLast?_concat, Option.some_inj] at hn
      rw [← hn]
      exact hq2
  case isFalse h =>
    exact ⟨hA, hB, fun q hq1 _ => endOK_mono hE hq1⟩

theorem noteStep_inv (minDur tol maxRange : ℚ) (maxNotes : ℕ) (m : JV) (f : PitchFrame)
    (notes : List NoteEvent) (cur : Option CurNote)
    (hA : ∀ n ∈ notes, minDur ≤ n.endSec - n.startSec)
    (hB : List.Chain' ov notes)
    (hcurE : ∀ c, cur = some c → endOK notes c.startSec ∧ c.startSec ≤ f.timeSec)
    (hnoneE : cur = none → endOK notes f.timeSec) :
    (∀ n ∈ (noteStep minDur tol maxRange maxNotes m f (notes, cur)).1.1,
        minDur ≤ n.endSec - n.startSec) ∧
      List.Chain' ov (noteStep minDur tol maxRange maxNotes m f (notes, cur)).1.1 ∧
      (∀ c, (noteStep minDur tol maxRange maxNotes m f (notes, cur)).1.2 = some c →
        endOK (noteStep minDur tol maxRange maxNotes m f (notes, cur)).1.1 c.startSec ∧
          (c.startSec = f.timeSec ∨ ∃ c₀, cur = some c₀ ∧ c.startSec = c₀.startSec)) ∧
      ((noteStep minDur tol maxRange maxNotes m f (notes, cur)).1.2 = none →
        endOK (noteStep minDur tol maxRange maxNotes m f (notes, cur)).1.1 f.timeSec) := by
  unfold noteStep
  by_cases hm : m = .jsNull
  · rw [if_pos hm]
    rcases cur with _ | c
    · dsimp only
      exact ⟨hA, hB, fun c hc => absurd hc (by simp), fun _ => hnoneE rfl⟩
    · dsimp only
      obtain ⟨hE, hle⟩ := hcurE c rfl
      obtain ⟨hA', hB', hfac⟩ := closeNote_inv minDur c f.timeSec notes hA hB hE
      exact ⟨hA', hB', fun c' hc' => absurd hc' (by simp),
        fun _ => hfac f.timeSec hle le_rfl⟩
  · rw [if_neg hm]
    rcases cur with _ | c
    · dsimp only
      refine ⟨hA, hB, ?_, fun h => absurd h (by simp)⟩
      intro c hc
      rw [Option.some_inj] at hc
      rw [← hc]
      exact ⟨hnoneE rfl, Or.inl rfl⟩
    · dsimp only
      split
      · refine ⟨hA, hB, ?_, fun h => absurd h (by simp)⟩
        intro c' hc'
        rw [Option.some_inj] at hc'
        rw [← hc']
        exact ⟨(hcurE c rfl).1, Or.inr ⟨c, rfl, rfl⟩⟩
      · obtain ⟨hE, hle⟩ := hcurE c rfl
        obtain ⟨hA', hB', hfac⟩ := closeNote_inv minDur c f.timeSec notes hA hB hE
        refine ⟨hA', hB', ?_, fun h => absurd h (by simp)⟩
        intro c' hc'
        rw [Option.some_inj] at hc'
        rw [← hc']
        exact ⟨hfac f.timeSec hle le_rfl, Or.inl rfl⟩

theorem noteGo_inv (minDur tol maxRange : ℚ) (maxNotes : ℕ) (T : ℚ)
    (l : List (JV × PitchFrame)) :
    ∀ (notes : List NoteEvent) (cur : Option CurNote),
      List.Pairwise (fun a b : JV × PitchFrame => a.2.timeSec ≤ b.2.timeSec) l →
      (∀ p ∈ l, p.2.timeSec ≤ T) →
      (∀ n ∈ notes, minDur ≤ n.endSec - n.startSec) →
      List.Chain' ov notes →
      (∀ c, cur = some c → endOK notes c.startSec ∧ c.startSec ≤ T ∧
        ∀ p ∈ l, c.startSec ≤ p.2.timeSec) →
      (cur = none → ∀ p ∈ l, endOK notes p.2.timeSec) →
      (∀ n ∈ (noteGo minDur tol maxRange maxNotes l (notes, cur)).1,
          minDur ≤ n.endSec - n.startSec) ∧
        List.Chain' ov (noteGo minDur tol maxRange maxNotes l (notes, cur)).1 ∧
        ∀ c, (noteGo minDur tol maxRange maxNotes l (notes, cur)).2 = some c →
          endOK (noteGo minDur tol maxRange maxNotes l (notes, cur)).1 c.startSec ∧
            c.startSec ≤ T := by
  induction l with
  | nil =>
    intro notes cur _ _ hA hB hcur _
    exact ⟨hA, hB, fun c hc => ⟨(hcur c hc).1, (hcur c hc).2.1⟩⟩
  | cons p rest ih =>
    obtain ⟨m, f⟩ := p
    intro notes cur hsort hT hA hB hcur hnone
    obtain ⟨hhead, hrest⟩ := List.pairwise_cons.mp hsort
    have hfT : f.timeSec ≤ T := hT (m, f) (List.mem_cons_self _ _)
    obtain ⟨hA', hB', hsome', hnone'⟩ :=
      noteStep_inv minDur tol maxRange maxNotes m f notes cur hA hB
        (fun c hc => ⟨(hcur c hc).1, (hcur c hc).2.2 (m, f) (List.mem_cons_self _ _)⟩)
        (fun hc => hnone hc (m, f) (List.mem_cons_self _ _))
    have hcur' : ∀ c, (noteStep minDur tol maxRange maxNotes m f (notes, cur)).1.2 = some c →
        endOK (noteStep minDur tol maxRange maxNotes m f (notes, cur)).1.1 c.startSec ∧
          c.startSec ≤ T ∧ ∀ p ∈ rest, c.startSec ≤ p.2.timeSec := by
      intro c hc
      obtain ⟨hE, hdisj⟩ := hsome' c hc
      refine ⟨hE, ?_, ?_⟩
      · rcases hdisj with heq | ⟨c₀, hc₀, heq⟩
        · rw [heq]; exact hfT
        · rw [heq]; exact (hcur c₀ hc₀).2.1
      · intro p hp
        rcases hdisj with heq | ⟨c₀, hc₀, heq⟩
        · rw [heq]; exact hhead p hp
        · rw [heq]; exact (hcur c₀ hc₀).2.2 p (List.mem_cons_of_mem _ hp)
    have hnone'' : (noteStep minDur tol maxRange maxNotes m f (notes, cur)).1.2 = none →
        ∀ p ∈ rest,
          endOK (noteStep minDur tol maxRange maxNotes m f (notes, cur)).1.1 p.2.timeSec := by
      intro hc p hp
      exact endOK_mono (hnone' hc) (hhead p hp)
    rw [noteGo]
    split
    · exact ⟨hA', hB', fun c hc => ⟨(hcur' c hc).1, (hcur' c hc).2.1⟩⟩
    · exact ih (noteStep minDur tol maxRange maxNotes m f (notes, cur)).1.1
        (noteStep minDur tol maxRange maxNotes m f (notes, cur)).1.2
        hrest (fun p hp => hT p (List.mem_cons_of_mem _ hp)) hA' hB' hcur' hnone''

theorem frameWindow_bounds (prevF : Option PitchFrame) (cur : PitchFrame)
    (nextF : Option PitchFrame)
    (hprev : ∀ p, prevF = some p → p.timeSec ≤ cur.timeSec)
    (hnext : ∀ n, nextF = some n → cur.timeSec ≤ n.timeSec)
    (hpos : 0 ≤ cur.timeSec) :
    (frameWindow prevF cur nextF).1 ≤ (frameWindow prevF cur nextF).2 ∧
      (frameWindow prevF cur nextF).1 ≤ cur.timeSec ∧
      cur.timeSec ≤ (frameWindow prevF cur nextF).2 := by
  unfold frameWindow
  rcases prevF with _ | p <;> rcases nextF with _ | n <;> dsimp only
  · exact ⟨le_max_left _ _, max_le hpos (max_le hpos (by linarith)),
      le_trans (by linarith) (le_max_right _ _)⟩
  · have hn := hnext n rfl
    exact ⟨le_max_left _ _, max_le hpos (max_le hpos (by linarith)),
      le_trans (by linarith) (le_max_right _ _)⟩
  · have hp := hprev p rfl
    exact ⟨le_max_left _ _, max_le hpos (by linarith),
      le_trans (by linarith) (le_max_right _ _)⟩
  · have hp := hprev p rfl
    have hn := hnext n rfl
    exact ⟨le_max_left _ _, max_le hpos (by linarith),
      le_trans (by linarith) (le_max_right _ _)⟩

theorem frameWindow_end_le (prevF : Option PitchFrame) (cur h : PitchFrame)
    (hprev : ∀ p, prevF = some p → p.timeSec ≤ cur.timeSec)
    (hh : cur.timeSec ≤ h.timeSec) (hpos : 0 ≤ cur.timeSec) :
    (frameWindow prevF cur (some h)).2 ≤ (cur.timeSec + h.timeSec) / 2 := by
  unfold frameWindow
  rcases prevF with _ | p <;> dsimp only
  · exact max_le (max_le (by linarith) (max_le (by linarith) (by linarith))) le_rfl
  · have hp := hprev p rfl
    exact max_le (max_le (by linarith) (by linarith)) le_rfl

theorem gridStep_inv (log2q : ℚ → ℚ) (mm : ℕ) (prevF : Option PitchFrame)
    (cur : PitchFrame) (nextF : Option PitchFrame)
    (st : List NoteEvent × Option NoteEvent × ℕ)
    (hprev : ∀ p, prevF = some p → p.timeSec ≤ cur.timeSec)
    (hnext : ∀ n, nextF = some n → cur.timeSec ≤ n.timeSec)
    (hpos : 0 ≤ cur.timeSec)
    (hA : ∀ n ∈ st.1, n.startSec ≤ n.endSec)
    (hB : List.Chain' ov st.1)
    (hcur : ∀ c, st.2.1 = some c → c.startSec ≤ c.endSec ∧ c.startSec ≤ cur.timeSec ∧
      endOK st.1 c.startSec ∧
      ∃ p, prevF = some p ∧ c.endSec ≤ (p.timeSec + cur.timeSec) / 2)
    (hnone : st.2.1 = none → ∀ n, st.1.getLast? = some n →
      ∃ p, prevF = some p ∧ n.endSec ≤ (p.timeSec + cur.timeSec) / 2) :
    (∀ n ∈ (gridStep log2q mm (frameWindow prevF cur nextF) cur st).1,
        n.startSec ≤ n.endSec) ∧
      List.Chain' ov (gridStep log2q mm (frameWindow prevF cur nextF) cur st).1 ∧
      (∀ c, (gridStep log2q mm (frameWindow prevF cur nextF) cur st).2.1 = some c →
        c.startSec ≤ c.endSec ∧ c.startSec ≤ cur.timeSec ∧
        endOK (gridStep log2q mm (frameWindow prevF cur nextF) cur st).1 c.startSec ∧
        c.endSec = (frameWindow prevF cur nextF).2) ∧
      ((gridStep log2q mm (frameWindow prevF cur nextF) cur st).2.1 = none →
        ∀ n, (gridStep log2q mm (frameWindow prevF cur nextF) cur st).1.getLast? = some n →
          ∃ p, prevF = some p ∧ n.endSec ≤ (p.timeSec + cur.timeSec) / 2) := by
  have hw := frameWindow_bounds prevF cur nextF hprev hnext hpos
  obtain ⟨ns, cur0, k⟩ := st
  unfold gridStep
  rcases hfz : cur.hz with _ | hz <;> rcases cur0 with _ | c <;> dsimp only
  · exact ⟨hA, hB, fun c' hc' => absurd hc' (by simp), fun _ => hnone rfl⟩
  · obtain ⟨h1, h2, h3, p, hp, h4⟩ := hcur c rfl
    refine ⟨?_, ?_, fun c' hc' => absurd hc' (by simp), ?_⟩
    · intro n hn
      rcases List.mem_append.mp hn with hn | hn
      · exact hA n hn
      · rw [List.mem_singleton] at hn
        rw [hn]
        exact h1
    · rw [List.chain'_append]
      refine ⟨hB, List.chain'_singleton _, ?_⟩
      intro x hx y hy
      rw [List.head?_cons, Option.mem_some_iff] at hy
      rw [← hy]
      exact h3 x (Option.mem_def.mp hx)
    · intro _ n hn
      rw [List.getLast?_concat, Option.some_inj] at hn
      rw [← hn]
      exact ⟨p, hp, h4⟩
  · refine ⟨hA, hB, ?_, fun h => absurd h (by simp)⟩
    intro c' hc'
    rw [Option.some_inj] at hc'
    rw [← hc']
    refine ⟨hw.1, hw.2.1, ?_, rfl⟩
    intro n hn
    obtain ⟨p, hp, hb⟩ := hnone rfl n hn
    subst hp
    show n.endSec ≤ max 0 ((p.timeSec + cur.timeSec) / 2)
    exact le_trans hb (le_max_right _ _)
  · split
    · obtain ⟨h1, h2, h3, p, hp, h4⟩ := hcur c rfl
      refine ⟨hA, hB, ?_, fun h => absurd h (by simp)⟩
      intro c' hc'
      rw [Option.some_inj] at hc'
      rw [← hc']
      exact ⟨le_trans h2 hw.2.2, h2, h3, rfl⟩
    · obtain ⟨h1, h2, h3, p, hp, h4⟩ := hcur c rfl
      have hApp : ∀ n ∈ ns ++ [c], n.startSec ≤ n.endSec := by
        intro n hn
        rcases List.mem_append.mp hn with hn | hn
        · exact hA n hn
        · rw [List.mem_singleton] at hn
          rw [hn]
          exact h1
      have hBpp : List.Chain' ov (ns ++ [c]) := by
        rw [List.chain'_append]
        refine ⟨hB, List.chain'_singleton _, ?_⟩
        intro x hx y hy
        rw [List.head?_cons, Option.mem_some_iff] at hy
        rw [← hy]
        exact h3 x (Option.mem_def.mp hx)
      refine ⟨hApp, hBpp, ?_, fun h => absurd h (by simp)⟩
      intro c' hc'
      rw [Option.some_inj] at hc'
      rw [← hc']
      refine ⟨hw.1, hw.2.1, ?_, rfl⟩
      intro n hn
      rw [List.getLast?_concat, Option.some_inj] at hn
      rw [← hn]
      subst hp
      show c.endSec ≤ max 0 ((p.timeSec + cur.timeSec) / 2)
      exact le_trans h4 (le_max_right _ _)

theorem gridGo_inv (log2q : ℚ → ℚ) (mm : ℕ) :
    ∀ (rest : List PitchFrame) (prevF : Option PitchFrame) (cur : PitchFrame)
      (st : List NoteEvent × Option NoteEvent × ℕ),
      (∀ p, prevF = some p → p.timeSec ≤ cur.timeSec) →
      List.Pairwise (fun a b : PitchFrame => a.timeSec ≤ b.timeSec) (cur :: rest) →
      (∀ f ∈ cur :: rest, 0 ≤ f.timeSec) →
      (∀ n ∈ st.1, n.startSec ≤ n.endSec) →
      List.Chain' ov st.1 →
      (∀ c, st.2.1 = some c → c.startSec ≤ c.endSec ∧ c.startSec ≤ cur.timeSec ∧
        endOK st.1 c.startSec ∧
        ∃ p, prevF = some p ∧ c.endSec ≤ (p.timeSec + cur.timeSec) / 2) →
      (st.2.1 = none → ∀ n, st.1.getLast? = some n →
        ∃ p, prevF = some p ∧ n.endSec ≤ (p.timeSec + cur.timeSec) / 2) →
      (∀ n ∈ (gridGo log2q mm prevF cur rest st).1, n.startSec ≤ n.endSec) ∧
        List.Chain' ov (gridGo log2q mm prevF cur rest st).1 ∧
        ∀ c, (gridGo log2q mm prevF cur rest st).2.1 = some c →
          c.startSec ≤ c.endSec ∧ endOK (gridGo log2q mm prevF cur rest st).1 c.startSec
  | [], prevF, cur, st, hprev, _, hpos, hA, hB, hcur, hnone => by
    obtain ⟨hA', hB', hsome', _⟩ := gridStep_inv log2q mm prevF cur none st hprev
      (fun n hn => absurd hn (by simp)) (hpos cur (List.mem_cons_self _ _)) hA hB hcur hnone
    rw [gridGo]
    exact ⟨hA', hB', fun c hc => ⟨(hsome' c hc).1, (hsome' c hc).2.2.1⟩⟩
  | h :: t, prevF, cur, st, hprev, hsort, hpos, hA, hB, hcur, hnone => by
    obtain ⟨hhead, hrest⟩ := List.pairwise_cons.mp hsort
    have hch : cur.timeSec ≤ h.timeSec := hhead h (List.mem_cons_self _ _)
    have hposc := hpos cur (List.mem_cons_self _ _)
    obtain ⟨hA', hB', hsome', hnone'⟩ := gridStep_inv log2q mm prevF cur (some h) st hprev
      (fun n hn => by rw [← Option.some_inj.mp hn]; exact hch) hposc hA hB hcur hnone
    have hwe : (frameWindow prevF cur (some h)).2 ≤ (cur.timeSec + h.timeSec) / 2 :=
      frameWindow_end_le prevF cur h hprev hch hposc
    rw [gridGo]
    exact gridGo_inv log2q mm t (some cur) h _
      (fun p hp => by
        rw [← Option.some_inj.mp hp]
        exact hch)
      hrest
      (fun f hf => hpos f (List.mem_cons_of_mem _ hf))
      hA' hB'
      (fun c hc => by
        obtain ⟨h1, h2, h3, h4⟩ := hsome' c hc
        exact ⟨h1, le_trans h2 hch, h3, cur, rfl, by rw [h4]; exact hwe⟩)
      (fun hc n hn => by
        obtain ⟨p, hp, hb⟩ := hnone' hc n hn
        have hpc : p.timeSec ≤ cur.timeSec := hprev p hp
        exact ⟨cur, rfl, by linarith⟩)

/-- C4 (amended): under the data-model time invariants (frame timestamps
non-decreasing and non-negative), every note of `extractNoteEvents` lasts at
least `minDurationSec` (so strictly positive whenever that option is
positive) and consecutive notes never overlap; for
`extractGridAlignedNoteEvents` consecutive notes never overlap either, but
each note only satisfies `startSec ≤ endSec` — the strict inequality fails,
see the zero-duration counterexample. -/
theorem C4_note_time_invariants (log2q lnq pow2 : ℚ → ℚ) (o : NoteExtractionOptions)
    (frames : List PitchFrame)
    (hsort : List.Pairwise (fun a b : PitchFrame => a.timeSec ≤ b.timeSec) frames)
    (hpos : ∀ f ∈ frames, 0 ≤ f.timeSec) :
    (∀ n ∈ extractNoteEvents log2q o frames, o.minDurationSec ≤ n.endSec - n.startSec) ∧
      List.Chain' (fun a b : NoteEvent => a.endSec ≤ b.startSec)
        (extractNoteEvents log2q o frames) ∧
      (∀ n ∈ (extractGridAlignedNoteEvents log2q lnq pow2 frames).notes,
        n.startSec ≤ n.endSec) ∧
      List.Chain' (fun a b : NoteEvent => a.endSec ≤ b.startSec)
        (extractGridAlignedNoteEvents log2q lnq pow2 frames).notes := by
  have hEx : (∀ n ∈ extractNoteEvents log2q o frames,
      o.minDurationSec ≤ n.endSec - n.startSec) ∧
      List.Chain' ov (extractNoteEvents log2q o frames) := by
    by_cases hne : frames = []
    · subst hne
      constructor <;> simp [extractNoteEvents]
    · obtain ⟨lf, hlf⟩ : ∃ lf, frames.getLast? = some lf := by
        rcases hgl : frames.getLast? with _ | lf
        · exact absurd (List.getLast?_eq_none_iff.mp hgl) hne
        · exact ⟨lf, rfl⟩
      have hbound : ∀ x ∈ frames, x.timeSec ≤ lf.timeSec := by
        intro x hx
        rcases pairwise_le_getLast hsort x hx lf hlf with h | h
        · exact h
        · rw [h]
      obtain ⟨hA, hB, hcur⟩ := noteGo_inv o.minDurationSec o.sameNoteToleranceSemitone
        o.maxInNoteRangeSemitone o.maxNotes lf.timeSec
        ((noteTrack log2q o frames).zip frames) [] none
        (pairwise_zip_right _ _ hsort)
        (fun p hp => hbound p.2 (List.of_mem_zip hp).2)
        (by simp)
        List.chain'_nil
        (fun c hc => absurd hc (by simp))
        (fun _ p _ => fun n hn => by simp at hn)
      rcases hst : noteGo o.minDurationSec o.sameNoteToleranceSemitone
          o.maxInNoteRangeSemitone o.maxNotes
          ((noteTrack log2q o frames).zip frames) ([], none) with ⟨notes1, cur1⟩
      rw [hst] at hA hB hcur
      rcases cur1 with _ | c
      · have hext : extractNoteEvents log2q o frames = notes1 := by
          unfold extractNoteEvents
          rw [if_neg hne, hst]
        rw [hext]
        exact ⟨hA, hB⟩
      · obtain ⟨hE, -⟩ := hcur c rfl
        have hext : extractNoteEvents log2q o frames =
            closeNote o.minDurationSec c lf.timeSec notes1 := by
          unfold extractNoteEvents
          rw [if_neg hne, hst, hlf]
        obtain ⟨hA', hB', -⟩ := closeNote_inv o.minDurationSec c lf.timeSec notes1 hA hB hE
        rw [hext]
        exact ⟨hA', hB'⟩
  have hGr : (∀ n ∈ (extractGridAlignedNoteEvents log2q lnq pow2 frames).notes,
      n.startSec ≤ n.endSec) ∧
      List.Chain' ov (extractGridAlignedNoteEvents log2q lnq pow2 frames).notes := by
    rcases frames with _ | ⟨f0, rest0⟩
    · constructor
      · intro n hn
        simp [extractGridAlignedNoteEvents] at hn
      · simp [extractGridAlignedNoteEvents]
    · obtain ⟨hg1, hgB, hg2⟩ := gridGo_inv log2q DEFAULT_EXTRACTION_OPTIONS.maxMergeCells
        rest0 none f0 ([], none, 0)
        (fun p hp => absurd hp (by simp))
        hsort hpos
        (by simp)
        List.chain'_nil
        (fun c hc => absurd hc (by simp))
        (fun _ n hn => by simp at hn)
      have hnotes : (extractGridAlignedNoteEvents log2q lnq pow2 (f0 :: rest0)).notes =
          match (gridGo log2q DEFAULT_EXTRACTION_OPTIONS.maxMergeCells none f0 rest0
            ([], none, 0)).2.1 with
          | some c => (gridGo log2q DEFAULT_EXTRACTION_OPTIONS.maxMergeCells none f0 rest0
              ([], none, 0)).1 ++ [c]
          | none => (gridGo log2q DEFAULT_EXTRACTION_OPTIONS.maxMergeCells none f0 rest0
              ([], none, 0)).1 := rfl
      rw [hnotes]
      rcases hc2 : (gridGo log2q DEFAULT_EXTRACTION_OPTIONS.maxMergeCells none f0 rest0
          ([], none, 0)).2.1 with _ | c2
      · dsimp only
        exact ⟨hg1, hgB⟩
      · dsimp only
        obtain ⟨hse, hOK⟩ := hg2 c2 hc2
        constructor
        · intro n hn
          rcases List.mem_append.mp hn with hn | hn
          · exact hg1 n hn
          · rw [List.mem_singleton] at hn
            rw [hn]
            exact hse
        · rw [List.chain'_append]
          refine ⟨hgB, List.chain'_singleton _, ?_⟩
          intro x hx y hy
          rw [List.head?_cons, Option.mem_some_iff] at hy
          rw [← hy]
          exact hOK x (Option.mem_def.mp hx)
  exact ⟨hEx.1, hEx.2, hGr.1, hGr.2⟩

def c4Frames : List PitchFrame := [⟨0, some 440, 1⟩, ⟨1, some 440, 1⟩]

/-- Witness for C4: the time invariants hold for a concrete two-frame input
and the amended conclusion follows from the theorem. -/
theorem C4_note_time_invariants_witness :
    List.Pairwise (fun a b : PitchFrame => a.timeSec ≤ b.timeSec) c4Frames ∧
      (∀ f ∈ c4Frames, 0 ≤ f.timeSec) ∧
      ((∀ n ∈ extractNoteEvents (fun _ => 0) DEFAULT_EXTRACTION_OPTIONS c4Frames,
          DEFAULT_EXTRACTION_OPTIONS.minDurationSec ≤ n.endSec - n.startSec) ∧
        List.Chain' (fun a b : NoteEvent => a.endSec ≤ b.startSec)
          (extractNoteEvents (fun _ => 0) DEFAULT_EXTRACTION_OPTIONS c4Frames) ∧
        (∀ n ∈ (extractGridAlignedNoteEvents (fun _ => 0) (fun _ => 0) (fun _ => 0)
            c4Frames).notes,
          n.startSec ≤ n.endSec) ∧
        List.Chain' (fun a b : NoteEvent => a.endSec ≤ b.startSec)
          (extractGridAlignedNoteEvents (fun _ => 0) (fun _ => 0) (fun _ => 0)
            c4Frames).notes) := by
  have h1 : List.Pairwise (fun a b : PitchFrame => a.timeSec ≤ b.timeSec) c4Frames := by
    norm_num [c4Frames, List.pairwise_cons]
  have h2 : ∀ f ∈ c4Frames, 0 ≤ f.timeSec := by
    intro f hf
    simp only [c4Frames, List.mem_cons, List.mem_singleton] at hf
    rcases hf with rfl | hf
    · norm_num
    · rcases hf with rfl | hf
      · norm_num
      · simp at hf
  exact ⟨h1, h2, C4_note_time_invariants (fun _ => 0) (fun _ => 0) (fun _ => 0)
    DEFAULT_EXTRACTION_OPTIONS c4Frames h1 h2⟩

def gridOneFrame : List PitchFrame := [⟨1 / 2, some 440, 1⟩]

/-- C4 (counterexample to the claim as stated): on a single voiced frame the
grid-aligned strategy's window degenerates to a point
(`startSec = endSec = timeSec`), so the emitted note has `endSec = startSec`,
violating the claimed strict `endSec > startSec`. -/
theorem C4_grid_zero_duration_counterexample :
    (extractGridAlignedNoteEvents (fun _ => 0) (fun _ => 0) (fun _ => 0) gridOneFrame).notes =
        [⟨.num 69, 1 / 2, 1 / 2, 100⟩] ∧
      ¬ ((1 : ℚ) / 2 < 1 / 2) := by
  constructor
  · have h69 : jsRound (hzToMidi (fun _ => (0 : ℚ)) 440) = 69 := by
      simp only [hzToMidi, jsRound]
      rw [show (69 : ℚ) + 12 * 0 + 1 / 2 = 139 / 2 by norm_num]
      rw [Int.floor_eq_iff]
      norm_num
    have h100 : jsRound ((1 : ℚ) * 100) = 100 := by
      rw [jsRound]
      rw [show (1 : ℚ) * 100 + 1 / 2 = 201 / 2 by norm_num]
      rw [Int.floor_eq_iff]
      norm_num
    simp only [extractGridAlignedNoteEvents, gridGo, gridStep, frameWindow, gridOneFrame,
      h69, h100]
    norm_num
  · norm_num

end Notes
